import Mathlib

/-!
# Sorting-and-classification engine of `src/App.js`

Shallow embedding of the five sort functions of `sortingAlgorithms`, the `merge`
helper, `classifyInputCase` and the loop of `handleSort`.

A JS array is a `List`.  The sort functions compare array elements with JS `<` / `>`;
the embedding takes the element type `α` together with `key : α → Int`, the integer the
comparison sees.  The arrays of the program hold numbers: `α = Int`, `key = id`.

The loops of `Bubble.sort`, `Selection.sort` and `Insertion.sort` index the array `a`;
they are embedded as recursive functions on the loop variables, the loop condition read
again at every iteration, and return `none` when an index falls outside the array.

Everything up to `handleSortResults` treats arrays as values.  The part from `Heap` on
embeds the same functions on a store of array objects, where `left.shift()` changes the
array it is called on and `return arr` returns the argument itself.

After that come `Selection.sort` with a counter on its comparisons, the arguments of the
recursive calls of `Merge.sort` and `Quick.sort`, and `parseInput` and
`generateRandomArray`.  A string is the list of its characters; the built-ins `split`,
`trim`, `parseInt` and the rendering of a number in `join` follow their ECMAScript
definitions.  A number of the program is the integer it holds: every integer of magnitude
at most 2^53 is a JS number, and beyond that only those of at most 53 significant binary
digits are.  Where `parseInt` reads an integer above 2^53 JS rounds it, and the embedding
leaves the result open; `Array.from` throws for a length of 2^32 or more, which is the
result `none` of `generateRandomArray`.  The draws of `Math.random()` are a parameter,
rational numbers.
-/

namespace SortViz

variable {α : Type}

/-! ## `merge` (App.js 107-113) -/

/-- The `while (left.length && right.length)` loop of `merge` followed by its `return`:
`result.push(left[0] < right[0] ? left.shift() : right.shift())` while both arrays are
non-empty, then `[...result, ...left, ...right]`. -/
def mergeLoop (key : α → Int) : List α → List α → List α → List α
  | l :: ls, r :: rs, result =>
    if key l < key r then mergeLoop key ls (r :: rs) (result ++ [l])
    else mergeLoop key (l :: ls) rs (result ++ [r])
  | [], right, result => result ++ [] ++ right
  | left, [], result => result ++ left ++ []
termination_by left right _ => left.length + right.length

/-- The function `merge(left, right)`: `const result = []`, then the loop. -/
def mergeBy (key : α → Int) (left right : List α) : List α :=
  mergeLoop key left right []

/-! ## `sortingAlgorithms.Merge.sort` (App.js 70-76) -/

/-- `Merge.sort`: arrays of length at most 1 are returned as they are; otherwise the halves
`arr.slice(0, mid)` and `arr.slice(mid)` with `mid = Math.floor(arr.length / 2)` are
sorted recursively and merged. -/
def Merge.sortBy (key : α → Int) (arr : List α) : List α :=
  if arr.length ≤ 1 then arr
  else
    let mid := arr.length / 2
    let left := Merge.sortBy key (arr.take mid)
    let right := Merge.sortBy key (arr.drop mid)
    mergeBy key left right
termination_by arr.length
decreasing_by
  all_goals simp_wf
  all_goals omega

/-! ## `sortingAlgorithms.Quick.sort` (App.js 84-98) -/

/-- The loop of `Quick.sort` from index `i` on, with the arrays `left` and `right` as
pushed so far: `for (...; i < arr.length - 1; i++)` with body
`if (arr[i] < pivot) left.push(arr[i]); else right.push(arr[i]);`. -/
def Quick.partition (key : α → Int) (arr : List α) (pivot : α) (i : Nat)
    (left right : List α) : List α × List α :=
  if h : (i : Int) < (arr.length : Int) - 1 then
    if key (arr[i]) < key pivot then
      Quick.partition key arr pivot (i + 1) (left ++ [arr[i]]) right
    else
      Quick.partition key arr pivot (i + 1) left (right ++ [arr[i]])
  else (left, right)
termination_by arr.length - i
decreasing_by
  all_goals simp_wf
  all_goals omega

/-- The loop of `Quick.sort` pushes each of `arr[i], ..., arr[arr.length - 2]` to exactly
one of `left` and `right`. -/
theorem quick_partition_length (key : α → Int) (arr : List α) (pivot : α) (i : Nat)
    (left right : List α) (hi : i + 1 ≤ arr.length) :
    (Quick.partition key arr pivot i left right).1.length +
        (Quick.partition key arr pivot i left right).2.length =
      left.length + right.length + (arr.length - 1 - i) := by
  generalize hn : arr.length - 1 - i = n
  induction n generalizing i left right with
  | zero =>
    rw [Quick.partition, dif_neg (by omega)]
    simp
  | succ n ih =>
    rw [Quick.partition, dif_pos (by omega)]
    split
    · rw [ih (i + 1) _ _ (by omega) (by omega)]
      simp; omega
    · rw [ih (i + 1) _ _ (by omega) (by omega)]
      simp; omega

/-- `Quick.sort`: arrays of length at most 1 are returned as they are; otherwise the pivot
is the last element `arr[arr.length - 1]`, the loop fills `left` and `right`, and the
result is `[...sort(left), pivot, ...sort(right)]`. -/
def Quick.sortBy (key : α → Int) (arr : List α) : List α :=
  if h : arr.length ≤ 1 then arr
  else
    let pivot := arr[arr.length - 1]
    let parts := Quick.partition key arr pivot 0 [] []
    Quick.sortBy key parts.1 ++ pivot :: Quick.sortBy key parts.2
termination_by arr.length
decreasing_by
  all_goals simp_wf
  · have := quick_partition_length key arr (arr[arr.length - 1]) 0 [] [] (by omega)
    simp at this
    omega
  · have := quick_partition_length key arr (arr[arr.length - 1]) 0 [] [] (by omega)
    simp at this
    omega

/-! ## `sortingAlgorithms.Bubble.sort` (App.js 16-24) -/

/-- The inner loop of `Bubble.sort` from index `j` on:
`for (...; j < a.length - i - 1; j++) if (a[j] > a[j + 1]) [a[j], a[j + 1]] = [a[j + 1], a[j]]`.
A read outside the array ends the run with `none`; the two writes of the exchange are at
the indices just read. -/
def Bubble.inner (key : α → Int) (i j : Nat) (a : List α) : Option (List α) :=
  if (j : Int) < (a.length : Int) - (i : Int) - 1 then
    match a[j]?, a[j + 1]? with
    | some x, some y =>
      if key x > key y then Bubble.inner key i (j + 1) ((a.set j y).set (j + 1) x)
      else Bubble.inner key i (j + 1) a
    | _, _ => none
  else some a
termination_by a.length - j
decreasing_by
  all_goals simp_wf
  all_goals omega

/-- The inner loop of `Bubble.sort` keeps the length of the array. -/
theorem bubble_inner_length (key : α → Int) (i j : Nat) (a a' : List α)
    (h : Bubble.inner key i j a = some a') : a'.length = a.length := by
  generalize hn : a.length - j = n
  induction n using Nat.strong_induction_on generalizing j a with
  | _ n ih =>
    rw [Bubble.inner] at h
    split at h
    · split at h
      · split at h
        · have := ih _ (by simp; omega) _ _ h rfl
          simpa using this
        · exact ih _ (by omega) _ _ h rfl
      · exact absurd h (by simp)
    · simp at h; rw [h]

/-- The outer loop of `Bubble.sort` from pass `i` on:
`for (...; i < a.length; i++) { inner loop }`. -/
def Bubble.outer (key : α → Int) (i : Nat) (a : List α) : Option (List α) :=
  if i < a.length then
    match h : Bubble.inner key i 0 a with
    | some a' => Bubble.outer key (i + 1) a'
    | none => none
  else some a
termination_by a.length - i
decreasing_by
  have := bubble_inner_length key i 0 a a' h
  omega

/-- `Bubble.sort`: `let a = [...arr]`, the two nested loops, `return a`. -/
def Bubble.sortBy (key : α → Int) (arr : List α) : Option (List α) :=
  Bubble.outer key 0 arr

/-! ## `sortingAlgorithms.Selection.sort` (App.js 32-42) -/

/-- The inner loop of `Selection.sort` from index `j` on, with the current `minIdx`:
`for (...; j < a.length; j++) if (a[j] < a[minIdx]) minIdx = j`; the result is the final
`minIdx`.  A read outside the array ends the run with `none`. -/
def Selection.inner (key : α → Int) (a : List α) (j minIdx : Nat) : Option Nat :=
  if j < a.length then
    match a[j]?, a[minIdx]? with
    | some x, some m =>
      if key x < key m then Selection.inner key a (j + 1) j
      else Selection.inner key a (j + 1) minIdx
    | _, _ => none
  else some minIdx
termination_by a.length - j

/-- The outer loop of `Selection.sort` from index `i` on:
`for (...; i < a.length; i++)` with body `let minIdx = i`, the inner loop from `i + 1`, and
the exchange `[a[i], a[minIdx]] = [a[minIdx], a[i]]`, whose two writes are at the indices
just read. -/
def Selection.outer (key : α → Int) (i : Nat) (a : List α) : Option (List α) :=
  if i < a.length then
    match Selection.inner key a (i + 1) i with
    | some minIdx =>
      match a[minIdx]?, a[i]? with
      | some m, some x => Selection.outer key (i + 1) ((a.set i m).set minIdx x)
      | _, _ => none
    | none => none
  else some a
termination_by a.length - i
decreasing_by
  simp_wf
  omega

/-- `Selection.sort`: `let a = [...arr]`, the two nested loops, `return a`. -/
def Selection.sortBy (key : α → Int) (arr : List α) : Option (List α) :=
  Selection.outer key 0 arr

/-! ## `sortingAlgorithms.Insertion.sort` (App.js 50-62) -/

/-- The `while (j >= 0 && a[j] > key)` loop of `Insertion.sort`, body
`a[j + 1] = a[j]; j--`, for the saved element `k` (the JS variable `key`); the result is
the array and `j` at loop exit.  A read or write outside the array ends the run with
`none`. -/
def Insertion.inner (key : α → Int) (k : α) (j : Int) (a : List α) :
    Option (List α × Int) :=
  if 0 ≤ j then
    match a[j.toNat]? with
    | some y =>
      if key y > key k then
        if (j + 1).toNat < a.length then
          Insertion.inner key k (j - 1) (a.set (j + 1).toNat y)
        else none
      else some (a, j)
    | none => none
  else some (a, j)
termination_by (j + 1).toNat
decreasing_by
  simp_wf
  omega

/-- The `while` loop of `Insertion.sort` keeps the length of the array. -/
theorem insertion_inner_length (key : α → Int) (k : α) (j : Int) (a a1 : List α) (j1 : Int)
    (h : Insertion.inner key k j a = some (a1, j1)) : a1.length = a.length := by
  generalize hn : (j + 1).toNat = n
  induction n using Nat.strong_induction_on generalizing j a with
  | _ n ih =>
    rw [Insertion.inner] at h
    split at h
    · split at h
      · split at h
        · split at h
          · have := ih _ (by omega) _ _ h rfl
            simpa using this
          · exact absurd h (by simp)
        · simp at h; rw [h.1]
      · exact absurd h (by simp)
    · simp at h; rw [h.1]

/-- The outer loop of `Insertion.sort` from index `i` on:
`for (...; i < a.length; i++) { let key = a[i]; let j = i - 1; while loop; a[j + 1] = key }`. -/
def Insertion.outer (key : α → Int) (i : Nat) (a : List α) : Option (List α) :=
  if i < a.length then
    match a[i]? with
    | some k =>
      match h : Insertion.inner key k ((i : Int) - 1) a with
      | some (a1, j) =>
        if 0 ≤ j + 1 ∧ (j + 1).toNat < a1.length then
          Insertion.outer key (i + 1) (a1.set (j + 1).toNat k)
        else none
      | none => none
    | none => none
  else some a
termination_by a.length - i
decreasing_by
  have := insertion_inner_length key k _ a a1 j h
  simp_wf
  omega

/-- `Insertion.sort`: `let a = [...arr]`, the loop from `i = 1`, `return a`. -/
def Insertion.sortBy (key : α → Int) (arr : List α) : Option (List α) :=
  Insertion.outer key 1 arr

/-! ## The five sort functions on the number arrays of the program -/

/-- `Bubble.sort` on the number arrays of the program. -/
def Bubble.sort (arr : List Int) : Option (List Int) := Bubble.sortBy id arr

/-- `Selection.sort` on the number arrays of the program. -/
def Selection.sort (arr : List Int) : Option (List Int) := Selection.sortBy id arr

/-- `Insertion.sort` on the number arrays of the program. -/
def Insertion.sort (arr : List Int) : Option (List Int) := Insertion.sortBy id arr

/-- `Merge.sort` on the number arrays of the program. -/
def Merge.sort (arr : List Int) : List Int := Merge.sortBy id arr

/-- `Quick.sort` on the number arrays of the program. -/
def Quick.sort (arr : List Int) : List Int := Quick.sortBy id arr

/-- The `merge` helper on the number arrays of the program. -/
def merge (left right : List Int) : List Int := mergeBy id left right

/-! ## `classifyInputCase` (App.js 129-148) -/

/-- `arr.every(callback)`: `callback(val, i, a)` is true for the element `val` at every
index `i` of `arr`, where `a` is `arr` itself. -/
def every (arr : List Int) (callback : Int → Nat → List Int → Bool) : Bool :=
  arr.enum.all (fun p => callback p.2 p.1 arr)

/-- The comparison `a[i] <= val` on numbers; reading outside the array gives `undefined`,
for which the comparison is false. -/
def leAt (a : List Int) (i : Nat) (val : Int) : Bool :=
  match a[i]? with
  | some prev => decide (prev ≤ val)
  | none => false

/-- The comparison `a[i] >= val`, false when `a[i]` is `undefined`. -/
def geAt (a : List Int) (i : Nat) (val : Int) : Bool :=
  match a[i]? with
  | some prev => decide (prev ≥ val)
  | none => false

/-- `const isSorted = arr.every((val, i, a) => i === 0 || a[i - 1] <= val)`. -/
def isSorted (arr : List Int) : Bool :=
  every arr (fun val i a => i == 0 || leAt a (i - 1) val)

/-- `const isReverseSorted = arr.every((val, i, a) => i === 0 || a[i - 1] >= val)`. -/
def isReverseSorted (arr : List Int) : Bool :=
  every arr (fun val i a => i == 0 || geAt a (i - 1) val)

/-- `classifyInputCase(arr, algoName)`: the `switch` compares `algoName` with the case
labels in order. -/
def classifyInputCase (arr : List Int) (algoName : String) : String :=
  if algoName = "Bubble" ∨ algoName = "Insertion" then
    if isSorted arr then "Best"
    else if isReverseSorted arr then "Worst"
    else "Average"
  else if algoName = "Selection" ∨ algoName = "Merge" then "Average (fixed time)"
  else if algoName = "Quick" then
    if isSorted arr || isReverseSorted arr then "Worst"
    else "Best/Average (random pivot)"
  else "Unknown"

/-! ## The loop of `handleSort` (App.js 155-180) -/

/-- The `complexity` object of an entry of `sortingAlgorithms`. -/
structure Complexity where
  best : String
  average : String
  worst : String

/-- An entry of `sortingAlgorithms`: the `sort` function and the `complexity` object. -/
structure Algo where
  sort : List Int → Option (List Int)
  complexity : Complexity

/-- The object `sortingAlgorithms` as `Object.entries` lists it: its keys in the order in
which they are written. -/
def sortingAlgorithms : List (String × Algo) :=
  [("Bubble", ⟨Bubble.sort, ⟨"O(n)", "O(n^2)", "O(n^2)"⟩⟩),
   ("Selection", ⟨Selection.sort, ⟨"O(n^2)", "O(n^2)", "O(n^2)"⟩⟩),
   ("Insertion", ⟨Insertion.sort, ⟨"O(n)", "O(n^2)", "O(n^2)"⟩⟩),
   ("Merge", ⟨fun arr => some (Merge.sort arr), ⟨"O(n log n)", "O(n log n)", "O(n log n)"⟩⟩),
   ("Quick", ⟨fun arr => some (Quick.sort arr), ⟨"O(n log n)", "O(n log n)", "O(n^2)"⟩⟩)]

/-- The object pushed to `output` for one algorithm. -/
structure ResultRecord where
  name : String
  time : Int
  CurrentCase : String
  sorted : String
  best : String
  average : String
  worst : String

/-- The digits `ds` without the zeros at their end. -/
def dropTrailingZeros (ds : List Char) : List Char :=
  (ds.reverse.dropWhile (fun c => c == '0')).reverse

/-- The JS number nearest to the natural number `m`, for `m` below 2^1024: `m` itself when
it has at most 53 binary digits, otherwise `m` rounded to 53 binary digits, a tie going to
the even one. -/
def roundToNumber (m : Nat) : Nat :=
  if m < 2 ^ 53 then m
  else
    let unit := 2 ^ ((Nat.toDigits 2 m).length - 53)
    let q := m / unit
    let r := m % unit
    if 2 * r < unit then q * unit
    else if unit < 2 * r then (q + 1) * unit
    else if q % 2 = 0 then q * unit
    else (q + 1) * unit

/-- The decimal that `Number::toString` writes for the JS number `x` of `d` digits, searched
from `k` significant digits on: the first multiple of `10 ^ (d - k)`, just below or just
above `x`, that rounds to `x`, the nearer one when both do; `x` when no `k` gives one. -/
def shortestDecimal (x d : Nat) : Nat → Nat → Nat
  | 0, _ => x
  | fuel + 1, k =>
    let p := 10 ^ (d - k)
    let lo := x / p * p
    let hi := lo + p
    if roundToNumber lo = x then
      if roundToNumber hi = x then (if x - lo ≤ hi - x then lo else hi) else lo
    else if roundToNumber hi = x then hi
    else shortestDecimal x d fuel (k + 1)

/-- The text JS gives for a number that is the integer `x` (`Number::toString`).  Below
2^53 in magnitude it is made of the decimal digits of `x`.  From 2^53 on the digits are
those of the decimal with the fewest significant digits that rounds to `x` (at most 17 are
needed): all its digits when it is below 10^21, and from 10^21 on the scientific notation,
the first digit, then `.` and the further digits if there are any, then `e+` and the
exponent, as in `1e+21`.  An integer that no JS number holds is written with its own
digits. -/
def numberToString (x : Int) : String :=
  if x.natAbs < 2 ^ 53 then toString x
  else
    let c := shortestDecimal x.natAbs (Nat.toDigits 10 x.natAbs).length 17 1
    let all := Nat.toDigits 10 c
    let sign := if x < 0 then ['-'] else []
    if c < 10 ^ 21 then String.mk (sign ++ all)
    else
      let mantissa := match dropTrailingZeros all with
        | [] => []
        | [d] => [d]
        | d :: ds => d :: '.' :: ds
      String.mk (sign ++ mantissa ++ ['e', '+'] ++ Nat.toDigits 10 (all.length - 1))

/-- The rendering `sorted.join(", ")` of a number array. -/
def join (xs : List Int) : String :=
  String.intercalate ", " (xs.map numberToString)

/-- The `forEach` over `Object.entries(sortingAlgorithms)` in `handleSort`, on the entries
still to visit.  `now k` stands for the reading of the `k`-th call of `performance.now()`,
in thousandths of a millisecond, `calls` counts the calls made so far, and `output` is the
array of records pushed so far. -/
def handleSortLoop (now : Nat → Int) (arr : List Int) :
    List (String × Algo) → Nat → List ResultRecord → Option (List ResultRecord)
  | [], _, output => some output
  | (name, algo) :: entries, calls, output =>
    let CurrentCase := classifyInputCase arr name
    let start := now calls
    match algo.sort arr with
    | some sorted =>
      let stop := now (calls + 1)
      handleSortLoop now arr entries (calls + 2)
        (output ++ [⟨name, stop - start, CurrentCase, join sorted,
          algo.complexity.best, algo.complexity.average, algo.complexity.worst⟩])
    | none => none

/-- The records `handleSort` passes to `setResults` for the parsed input `arr`. -/
def handleSortResults (now : Nat → Int) (arr : List Int) : Option (List ResultRecord) :=
  handleSortLoop now arr sortingAlgorithms 0 []

/-! ## The sort functions on a store of array objects -/

/-- The store of array objects: `h[r]?` is the contents of the array with reference `r`. -/
abbrev Heap := List (List Int)

/-- A new array object with contents `xs`: the store with it and its reference. -/
def Heap.alloc (h : Heap) (xs : List Int) : Heap × Nat :=
  (h ++ [xs], h.length)

/-- Statements that read and write the one array `a` in place, as a change of the store:
`body` maps the contents of `a` before them to its contents after them.  The loops of
`Bubble.sort`, `Selection.sort` and `Insertion.sort` are such statements: they name no
array but their local `a`. -/
def Heap.modify (h : Heap) (a : Nat) (body : List Int → Option (List Int)) : Option Heap :=
  match h[a]? with
  | some xs =>
    match body xs with
    | some out => some (h.set a out)
    | none => none
  | none => none

/-- `Bubble.sort(arr)` on the store: `let a = [...arr]` is a new array, the loops read and
write `a`, and `a` is returned. -/
def Bubble.sortRef (h : Heap) (arr : Nat) : Option (Heap × Nat) :=
  match h[arr]? with
  | some xs =>
    match Heap.modify (Heap.alloc h xs).1 (Heap.alloc h xs).2 (Bubble.outer id 0) with
    | some h1 => some (h1, (Heap.alloc h xs).2)
    | none => none
  | none => none

/-- `Selection.sort(arr)` on the store. -/
def Selection.sortRef (h : Heap) (arr : Nat) : Option (Heap × Nat) :=
  match h[arr]? with
  | some xs =>
    match Heap.modify (Heap.alloc h xs).1 (Heap.alloc h xs).2 (Selection.outer id 0) with
    | some h1 => some (h1, (Heap.alloc h xs).2)
    | none => none
  | none => none

/-- `Insertion.sort(arr)` on the store. -/
def Insertion.sortRef (h : Heap) (arr : Nat) : Option (Heap × Nat) :=
  match h[arr]? with
  | some xs =>
    match Heap.modify (Heap.alloc h xs).1 (Heap.alloc h xs).2 (Insertion.outer id 1) with
    | some h1 => some (h1, (Heap.alloc h xs).2)
    | none => none
  | none => none

/-- The loop of `merge(left, right)` on the store, for at most `fuel` iterations:
`left.shift()` and `right.shift()` remove the first element of the array object itself;
`result` is local to `merge`.  At loop exit the store and the elements of
`[...result, ...left, ...right]` are returned. -/
def mergeLoopRef : Nat → Heap → Nat → Nat → List Int → Option (Heap × List Int)
  | 0, _, _, _, _ => none
  | fuel + 1, h, left, right, result =>
    match h[left]?, h[right]? with
    | some (l :: ls), some (r :: rs) =>
      if l < r then mergeLoopRef fuel (h.set left ls) left right (result ++ [l])
      else mergeLoopRef fuel (h.set right rs) left right (result ++ [r])
    | some ls, some rs => some (h, result ++ ls ++ rs)
    | _, _ => none

/-- `merge(left, right)` on the store: the loop, then the new array it returns. -/
def mergeRef (h : Heap) (left right : Nat) : Option (Heap × Nat) :=
  match h[left]?, h[right]? with
  | some ls, some rs =>
    match mergeLoopRef (ls.length + rs.length + 1) h left right [] with
    | some (h1, out) => some (Heap.alloc h1 out)
    | none => none
  | _, _ => none

/-- `Merge.sort(arr)` on the store, for a recursion depth of at most `fuel`: an array of
length at most 1 is returned itself; `arr.slice(0, mid)` and `arr.slice(mid)` are new
arrays, the second one read from `arr` after the first recursive call. -/
def Merge.sortRefFuel : Nat → Heap → Nat → Option (Heap × Nat)
  | 0, _, _ => none
  | fuel + 1, h, arr =>
    match h[arr]? with
    | some xs =>
      if xs.length ≤ 1 then some (h, arr)
      else
        let mid := xs.length / 2
        match Merge.sortRefFuel fuel (Heap.alloc h (xs.take mid)).1
            (Heap.alloc h (xs.take mid)).2 with
        | some (h2, left) =>
          match h2[arr]? with
          | some xs2 =>
            match Merge.sortRefFuel fuel (Heap.alloc h2 (xs2.drop mid)).1
                (Heap.alloc h2 (xs2.drop mid)).2 with
            | some (h4, right) => mergeRef h4 left right
            | none => none
          | none => none
        | none => none
    | none => none

/-- `Merge.sort(arr)` on the store. -/
def Merge.sortRef (h : Heap) (arr : Nat) : Option (Heap × Nat) :=
  match h[arr]? with
  | some xs => Merge.sortRefFuel (xs.length + 1) h arr
  | none => none

/-- `Quick.sort(arr)` on the store, for a recursion depth of at most `fuel`: an array of
length at most 1 is returned itself; `left` and `right` are new arrays, which only the
loop pushes to; the spread `...sort(left)` copies the returned array before `sort(right)`
is called; the result is a new array. -/
def Quick.sortRefFuel : Nat → Heap → Nat → Option (Heap × Nat)
  | 0, _, _ => none
  | fuel + 1, h, arr =>
    match h[arr]? with
    | some xs =>
      if hlen : xs.length ≤ 1 then some (h, arr)
      else
        let pivot := xs[xs.length - 1]
        let parts := Quick.partition id xs pivot 0 [] []
        let l := Heap.alloc h parts.1
        let r := Heap.alloc l.1 parts.2
        match Quick.sortRefFuel fuel r.1 l.2 with
        | some (h3, sl) =>
          match h3[sl]? with
          | some ls =>
            match Quick.sortRefFuel fuel h3 r.2 with
            | some (h4, sr) =>
              match h4[sr]? with
              | some rs => some (Heap.alloc h4 (ls ++ pivot :: rs))
              | none => none
            | none => none
          | none => none
        | none => none
    | none => none

/-- `Quick.sort(arr)` on the store. -/
def Quick.sortRef (h : Heap) (arr : Nat) : Option (Heap × Nat) :=
  match h[arr]? with
  | some xs => Quick.sortRefFuel (xs.length + 1) h arr
  | none => none

/-- An entry of `sortingAlgorithms`, its `sort` function acting on the store. -/
structure AlgoRef where
  sort : Heap → Nat → Option (Heap × Nat)
  complexity : Complexity

/-- The object `sortingAlgorithms`, the `sort` functions acting on the store. -/
def sortingAlgorithmsRef : List (String × AlgoRef) :=
  [("Bubble", ⟨Bubble.sortRef, ⟨"O(n)", "O(n^2)", "O(n^2)"⟩⟩),
   ("Selection", ⟨Selection.sortRef, ⟨"O(n^2)", "O(n^2)", "O(n^2)"⟩⟩),
   ("Insertion", ⟨Insertion.sortRef, ⟨"O(n)", "O(n^2)", "O(n^2)"⟩⟩),
   ("Merge", ⟨Merge.sortRef, ⟨"O(n log n)", "O(n log n)", "O(n log n)"⟩⟩),
   ("Quick", ⟨Quick.sortRef, ⟨"O(n log n)", "O(n log n)", "O(n^2)"⟩⟩)]

/-- The `forEach` of `handleSort` on the store: every iteration passes the same array
object `arr` to `classifyInputCase` and to `algo.sort`, and joins the array returned. -/
def handleSortLoopRef (now : Nat → Int) (arr : Nat) :
    List (String × AlgoRef) → Nat → Heap → List ResultRecord →
      Option (Heap × List ResultRecord)
  | [], _, h, output => some (h, output)
  | (name, algo) :: entries, calls, h, output =>
    match h[arr]? with
    | some xs =>
      let CurrentCase := classifyInputCase xs name
      let start := now calls
      match algo.sort h arr with
      | some (h1, sorted) =>
        let stop := now (calls + 1)
        match h1[sorted]? with
        | some out =>
          handleSortLoopRef now arr entries (calls + 2) h1
            (output ++ [⟨name, stop - start, CurrentCase, join out,
              algo.complexity.best, algo.complexity.average, algo.complexity.worst⟩])
        | none => none
      | none => none
    | none => none

/-- Every array object of the store `h` is in the store `h2` with the same contents. -/
def Heap.Preserved (h h2 : Heap) : Prop :=
  h.length ≤ h2.length ∧ ∀ r0 : Nat, r0 < h.length → h2[r0]? = h[r0]?

/-- A sort function on the store `f` computes what the function on values `g` computes,
in an array of the resulting store, and leaves every array object of the store it
started from as it was. -/
def RefinesSort (f : Heap → Nat → Option (Heap × Nat))
    (g : List Int → Option (List Int)) : Prop :=
  ∀ (h : Heap) (arr : Nat) (xs : List Int), h[arr]? = some xs →
    ∃ (h2 : Heap) (r : Nat) (out : List Int),
      f h arr = some (h2, r) ∧ g xs = some out ∧ h2[r]? = some out ∧ Heap.Preserved h h2

/-- An entry acting on the store against the entry acting on values. -/
def EntryRefines (e2 : String × AlgoRef) (e : String × Algo) : Prop :=
  e2.1 = e.1 ∧ e2.2.complexity = e.2.complexity ∧ RefinesSort e2.2.sort e.2.sort

/-! ## `Selection.sort` with its comparisons counted -/

/-- The inner loop of `Selection.sort` with a counter: `count` goes up by one at every
evaluation of the comparison `a[j] < a[minIdx]`; the result is the final `minIdx` and the
final `count`. -/
def Selection.innerCount (key : α → Int) (a : List α) (j minIdx count : Nat) :
    Option (Nat × Nat) :=
  if j < a.length then
    match a[j]?, a[minIdx]? with
    | some x, some m =>
      if key x < key m then Selection.innerCount key a (j + 1) j (count + 1)
      else Selection.innerCount key a (j + 1) minIdx (count + 1)
    | _, _ => none
  else some (minIdx, count)
termination_by a.length - j

/-- The outer loop of `Selection.sort` with the counter of comparisons. -/
def Selection.outerCount (key : α → Int) (i : Nat) (a : List α) (count : Nat) :
    Option (List α × Nat) :=
  if i < a.length then
    match Selection.innerCount key a (i + 1) i count with
    | some (minIdx, count1) =>
      match a[minIdx]?, a[i]? with
      | some m, some x =>
        Selection.outerCount key (i + 1) ((a.set i m).set minIdx x) count1
      | _, _ => none
    | none => none
  else some (a, count)
termination_by a.length - i
decreasing_by
  simp_wf
  omega

/-- `Selection.sort` with the number of comparisons `a[j] < a[minIdx]` it makes. -/
def Selection.sortCount (key : α → Int) (arr : List α) : Option (List α × Nat) :=
  Selection.outerCount key 0 arr 0

/-! ## The recursive calls of `Merge.sort` and `Quick.sort`, the iterations of `merge` -/

/-- The arguments of the recursive calls that `Merge.sort(arr)` makes itself, in the order
of the calls: none for an array of length at most 1, otherwise `arr.slice(0, mid)` and
`arr.slice(mid)`. -/
def Merge.calls (arr : List α) : List (List α) :=
  if arr.length ≤ 1 then []
  else [arr.take (arr.length / 2), arr.drop (arr.length / 2)]

/-- The arguments of the recursive calls that `Quick.sort(arr)` makes itself, in the order
of the calls: none for an array of length at most 1, otherwise `left` and `right` as the
loop leaves them. -/
def Quick.calls (key : α → Int) (arr : List α) : List (List α) :=
  if h : arr.length ≤ 1 then []
  else
    [(Quick.partition key arr arr[arr.length - 1] 0 [] []).1,
      (Quick.partition key arr arr[arr.length - 1] 0 [] []).2]

/-- The call `Quick.sort(S)` leads to the call `Quick.sort(arr)`: `arr` is `S` or the
argument of a recursive call made by a call that `Quick.sort(S)` leads to. -/
inductive Quick.Reaches (key : α → Int) (S : List α) : List α → Prop
  | root : Quick.Reaches key S S
  | call {arr sub : List α} :
      Quick.Reaches key S arr → sub ∈ Quick.calls key arr → Quick.Reaches key S sub

/-- One iteration of the `while (left.length && right.length)` loop of `merge` on the
arrays `left`, `right` and `result`: `none` when the loop condition is false. -/
def mergeStep (key : α → Int) :
    List α × List α × List α → Option (List α × List α × List α)
  | (l :: ls, r :: rs, result) =>
    if key l < key r then some (ls, r :: rs, result ++ [l])
    else some (l :: ls, rs, result ++ [r])
  | _ => none

/-! ## `parseInput` (App.js 115-120) -/

/-- `split(",")` (in general `split(sep)` for a one-character `sep`) on the characters of
a string: the pieces between the separators, `[""]` for the empty string. -/
def split (sep : Char) : List Char → List (List Char)
  | [] => [[]]
  | c :: cs =>
    if c = sep then [] :: split sep cs
    else
      match split sep cs with
      | tok :: toks => (c :: tok) :: toks
      | [] => [[c]]

/-- The white space and line terminator characters of JS, which `trim()` removes and
`parseInt` skips: tab, LF, VT, FF, CR, space, NBSP, the Unicode space separators, LS, PS
and the byte order mark. -/
def isWhiteSpace (c : Char) : Bool :=
  [0x9, 0xA, 0xB, 0xC, 0xD, 0x20, 0xA0, 0x1680, 0x2000, 0x2001, 0x2002, 0x2003, 0x2004,
    0x2005, 0x2006, 0x2007, 0x2008, 0x2009, 0x200A, 0x2028, 0x2029, 0x202F, 0x205F, 0x3000,
    0xFEFF].contains c.toNat

/-- `n.trim()`: the string without the white space at its start and at its end. -/
def trim (n : List Char) : List Char :=
  ((n.dropWhile isWhiteSpace).reverse.dropWhile isWhiteSpace).reverse

/-- The value of a character as a digit of `parseInt`: `0`-`9`, then `a`-`z` and `A`-`Z`
for 10 to 35. -/
def digitValue (c : Char) : Option Nat :=
  if 48 ≤ c.toNat ∧ c.toNat ≤ 57 then some (c.toNat - 48)
  else if 97 ≤ c.toNat ∧ c.toNat ≤ 122 then some (c.toNat - 97 + 10)
  else if 65 ≤ c.toNat ∧ c.toNat ≤ 90 then some (c.toNat - 65 + 10)
  else none

/-- The value of a character as a digit of radix `R`, if it is one. -/
def radixDigit (R : Nat) (c : Char) : Option Nat :=
  match digitValue c with
  | some d => if d < R then some d else none
  | none => none

/-- The sign step of `parseInt`: a leading `-` makes the sign -1, and a leading `-` or
`+` is removed. -/
def stripSign (S : List Char) : Int × List Char :=
  match S with
  | '-' :: t => (-1, t)
  | '+' :: t => (1, t)
  | _ => (1, S)

/-- The prefix step of `parseInt` called with no radix: a leading `0x` or `0X` is removed
and makes the radix 16, otherwise the radix is 10. -/
def stripPrefix (S : List Char) : Nat × List Char :=
  match S with
  | '0' :: 'x' :: t => (16, t)
  | '0' :: 'X' :: t => (16, t)
  | _ => (10, S)

/-- The integer that the digits `Z` write in radix `R`. -/
def digitsValue (R : Nat) (Z : List Char) : Nat :=
  Z.foldl (fun acc c => acc * R + (radixDigit R c).getD 0) 0

/-- What `parseInt` returns: `NaN`; or a number that is the integer `z`, of magnitude at
most 2^53, which a JS number holds exactly (`-0` is the integer 0); or, when the digits
write an integer above 2^53, the JS number nearest to it (or `Infinity`), a number that is
not determined here. -/
inductive ParsedNumber where
  | notANumber : ParsedNumber
  | integer (z : Int) : ParsedNumber
  | rounded : ParsedNumber
  deriving DecidableEq

/-- The built-in `parseInt(string)` called with no radix: leading white space is skipped,
the sign and the prefix are read, and the value is that of the longest run of digits that
follows, `NaN` when there is no digit.  The integer the digits write is the result when it
is at most 2^53; above, JS rounds it to a number, and the result is `rounded`. -/
def parseInt (inputString : List Char) : ParsedNumber :=
  let signed := stripSign (inputString.dropWhile isWhiteSpace)
  let prefixed := stripPrefix signed.2
  let Z := prefixed.2.takeWhile (fun c => (radixDigit prefixed.1 c).isSome)
  if Z.isEmpty then ParsedNumber.notANumber
  else if digitsValue prefixed.1 Z ≤ 2 ^ 53 then
    ParsedNumber.integer (signed.1 * (digitsValue prefixed.1 Z : Int))
  else ParsedNumber.rounded

/-- `.filter((n) => !isNaN(n))` on the results of `parseInt`: the `NaN` are removed and
the numbers kept, in order.  The result is `none` when one of the numbers kept is a
rounded one, which the embedding does not determine. -/
def keepNumbers : List ParsedNumber → Option (List Int)
  | [] => some []
  | ParsedNumber.notANumber :: t => keepNumbers t
  | ParsedNumber.integer z :: t =>
    match keepNumbers t with
    | some zs => some (z :: zs)
    | none => none
  | ParsedNumber.rounded :: _ => none

/-- The integer a result of `parseInt` holds, `none` for `NaN` and for a rounded number. -/
def integerValue : ParsedNumber → Option Int
  | ParsedNumber.integer z => some z
  | _ => none

/-- `parseInput(input)`:
`input.split(",").map((n) => parseInt(n.trim())).filter((n) => !isNaN(n))`; `none` when a
token writes an integer above 2^53. -/
def parseInput (input : String) : Option (List Int) :=
  keepNumbers ((split ',' input.data).map (fun n => parseInt (trim n)))

/-! ## `generateRandomArray` (App.js 122-127) and its call (App.js 216-218) -/

/-- One element of the array: `Math.floor(Math.random() * (max - min + 1)) + min` for the
draw `r` of `Math.random()`, a rational number here. -/
def randomInt (r : ℚ) (min max : Int) : Int :=
  ⌊r * ((max - min + 1 : Int) : ℚ)⌋ + min

/-- The elements of the array `arr` of
`generateRandomArray(length = 10, min = 1, max = 1000)`, which
`Array.from({ length }, () => ...)` computes one after the other.  An argument that is not
passed is `none` and takes its default; there are `length` elements, none when `length`
is not positive; `random k` stands for the `k`-th draw of `Math.random()`.  For a
`length` of 2^32 or more `Array.from` makes no array and throws: see
`generateRandomArray`. -/
def generateRandomValues (random : Nat → ℚ) (length min max : Option Int) : List Int :=
  (List.range (length.getD 10).toNat).map
    (fun k => randomInt (random k) (min.getD 1) (max.getD 1000))

/-- `generateRandomArray(length, min, max)`: `arr.join(", ")`, and `none` for the
`RangeError` that `Array.from({ length }, ...)` throws when `length` is 2^32 or more. -/
def generateRandomArray (random : Nat → ℚ) (length min max : Option Int) : Option String :=
  if 2 ^ 32 ≤ length.getD 10 then none
  else some (join (generateRandomValues random length min max))

/-- The argument `len ? len : 10` of the call in the click handler of "Generate Random
Data".  `len` is the text of the length field: `none` for the empty text, which is falsy,
and `some n` for a text that reads as the number `n` (such as "25", "0" or "-3"), which
is truthy as every non-empty text is. -/
def requestedLength (len : Option Int) : Int :=
  match len with
  | some n => n
  | none => 10

/-- The text the click handler passes to `setInput`:
`generateRandomArray(len ? len : 10)`; `none` when the call throws. -/
def onGenerateClick (random : Nat → ℚ) (len : Option Int) : Option String :=
  generateRandomArray random (some (requestedLength len)) none none

/-! ## The input of the loop of `handleSort` (App.js 157-163) -/

/-- The array `arr` of `handleSort`: `parseInput(generateRandomArray())` when the input
text is empty, `parseInput(input)` otherwise. -/
def handleSortInput (random : Nat → ℚ) (input : String) : Option (List Int) :=
  if input = "" then
    match generateRandomArray random none none none with
    | some text => parseInput text
    | none => none
  else parseInput input

/-! ## Valid integers, in the words of the specification -/

/-- A decimal digit character, `0` to `9`. -/
def isDecimalDigit (c : Char) : Bool :=
  decide (48 ≤ c.toNat ∧ c.toNat ≤ 57)

/-- A token is a valid integer when it is an optional sign followed by one or more decimal
digits and nothing else. -/
def isInteger (tok : List Char) : Bool :=
  match tok with
  | '-' :: ds => !ds.isEmpty && ds.all isDecimalDigit
  | '+' :: ds => !ds.isEmpty && ds.all isDecimalDigit
  | ds => !ds.isEmpty && ds.all isDecimalDigit

/-- What the specification says of the Input Normalizer: split on commas, trim each
token, keep the value of the tokens that are valid integers and discard the others. -/
def parseInputSpec (input : String) : Option (List Int) :=
  keepNumbers ((split ',' input.data).map
    (fun n => if isInteger (trim n) then parseInt (trim n) else ParsedNumber.notANumber))

/-! ## Decimal digits, for the proofs about `parseInput` -/

/-- The characters `Nat.toDigits 10` produces: decimal digits. -/
def IsDecimal (c : Char) : Prop := ∃ d, d < 10 ∧ c = Nat.digitChar d

/-- The characters that `join` puts after the first element: `", "` and the rendering,
for each further element. -/
def joinTail : List Int → List Char
  | [] => []
  | y :: t => ',' :: ' ' :: ((numberToString y).data ++ joinTail t)

/-! ## Definitions used in the proofs -/

/-- One pass of adjacent compare-and-swap over `x :: r`, carrying the current element. -/
def bubbleGo (key : α → Int) (x : α) : List α → List α
  | [] => [x]
  | y :: r => if key x > key y then y :: bubbleGo key x r else x :: bubbleGo key y r

/-! ## Stability -/

/-- A sort function `f` is stable for `key` when, for every key value `k`, the elements
with key `k` appear in `f S` in the same relative order as in `S`. -/
def Stable (key : α → Int) (f : List α → List α) : Prop :=
  ∀ (S : List α) (k : Int),
    (f S).filter (fun x => decide (key x = k)) = S.filter (fun x => decide (key x = k))

/-! ## Theorems: `merge` -/

theorem mergeLoop_nil_left (key : α → Int) (right result : List α) :
    mergeLoop key [] right result = result ++ right := by
  cases right <;> simp [mergeLoop]

theorem mergeLoop_nil_right (key : α → Int) (left result : List α) :
    mergeLoop key left [] result = result ++ left := by
  cases left <;> simp [mergeLoop]

theorem mergeLoop_cons_cons (key : α → Int) (l r : α) (ls rs result : List α) :
    mergeLoop key (l :: ls) (r :: rs) result =
      if key l < key r then mergeLoop key ls (r :: rs) (result ++ [l])
      else mergeLoop key (l :: ls) rs (result ++ [r]) := by
  rw [mergeLoop]

/-- The accumulator `result` of the loop is a prefix of what `merge` returns. -/
theorem mergeLoop_acc (key : α → Int) (left right result : List α) :
    mergeLoop key left right result = result ++ mergeBy key left right := by
  induction left generalizing right result with
  | nil => simp [mergeBy, mergeLoop_nil_left]
  | cons l ls ihl =>
    induction right generalizing result with
    | nil => simp [mergeBy, mergeLoop_nil_right]
    | cons r rs ihr =>
      rw [mergeBy, mergeLoop_cons_cons, mergeLoop_cons_cons]
      split
      · rw [ihl, ihl (r :: rs) ([] ++ [l])]; simp
      · rw [ihr, ihr ([] ++ [r])]; simp

theorem mergeBy_nil_left (key : α → Int) (right : List α) : mergeBy key [] right = right := by
  simp [mergeBy, mergeLoop_nil_left]

theorem mergeBy_nil_right (key : α → Int) (left : List α) : mergeBy key left [] = left := by
  simp [mergeBy, mergeLoop_nil_right]

theorem mergeBy_cons_cons (key : α → Int) (l r : α) (ls rs : List α) :
    mergeBy key (l :: ls) (r :: rs) =
      if key l < key r then l :: mergeBy key ls (r :: rs)
      else r :: mergeBy key (l :: ls) rs := by
  rw [mergeBy, mergeLoop_cons_cons]
  split <;> simp [mergeLoop_acc]

theorem mergeBy_perm (key : α → Int) (left right : List α) :
    (mergeBy key left right).Perm (left ++ right) := by
  induction left generalizing right with
  | nil => simp [mergeBy_nil_left]
  | cons l ls ihl =>
    induction right with
    | nil => simp [mergeBy_nil_right]
    | cons r rs ihr =>
      rw [mergeBy_cons_cons]
      split
      · exact (ihl (r :: rs)).cons l
      · refine (ihr.cons r).trans ?_
        have hmid : ((l :: ls) ++ r :: rs).Perm (r :: ((l :: ls) ++ rs)) := List.perm_middle
        exact hmid.symm

/-- Merging two arrays that are ordered by key gives an array ordered by key. -/
theorem mergeBy_sorted (key : α → Int) (left right : List α)
    (hl : left.Pairwise (fun x y => key x ≤ key y))
    (hr : right.Pairwise (fun x y => key x ≤ key y)) :
    (mergeBy key left right).Pairwise (fun x y => key x ≤ key y) := by
  induction left generalizing right with
  | nil => simpa [mergeBy_nil_left] using hr
  | cons l ls ihl =>
    induction right with
    | nil => simpa [mergeBy_nil_right] using hl
    | cons r rs ihr =>
      rw [mergeBy_cons_cons]
      rw [List.pairwise_cons] at hl hr
      split
      · rename_i hlt
        refine List.pairwise_cons.2 ⟨?_, ihl (r :: rs) hl.2 (List.pairwise_cons.2 hr)⟩
        intro y hy
        rcases List.mem_append.1 ((mergeBy_perm key ls (r :: rs)).subset hy) with h | h
        · exact hl.1 y h
        · rcases List.mem_cons.1 h with h | h
          · subst h; omega
          · have := hr.1 y h; omega
      · rename_i hlt
        refine List.pairwise_cons.2 ⟨?_, ihr hr.2⟩
        intro y hy
        rcases List.mem_append.1 ((mergeBy_perm key (l :: ls) rs).subset hy) with h | h
        · rcases List.mem_cons.1 h with h | h
          · subst h; omega
          · have := hl.1 y h; omega
        · exact hr.1 y h

/-! ## Theorems: `Merge.sort` -/

theorem merge_sortBy_perm (key : α → Int) (arr : List α) :
    (Merge.sortBy key arr).Perm arr := by
  generalize h : arr.length = n
  induction n using Nat.strong_induction_on generalizing arr with
  | _ n ih =>
    rw [Merge.sortBy]
    split
    · exact List.Perm.refl _
    · have h1 : (arr.take (arr.length / 2)).length < n := by simp; omega
      have h2 : (arr.drop (arr.length / 2)).length < n := by simp; omega
      refine (mergeBy_perm key _ _).trans ?_
      refine ((ih _ h1 _ rfl).append (ih _ h2 _ rfl)).trans ?_
      rw [List.take_append_drop]

theorem merge_sortBy_sorted (key : α → Int) (arr : List α) :
    (Merge.sortBy key arr).Pairwise (fun x y => key x ≤ key y) := by
  generalize h : arr.length = n
  induction n using Nat.strong_induction_on generalizing arr with
  | _ n ih =>
    rw [Merge.sortBy]
    split
    · rename_i hle
      match arr, hle with
      | [], _ => exact List.Pairwise.nil
      | [x], _ => exact List.pairwise_singleton _ _
      | _ :: _ :: _, hle => simp at hle
    · have h1 : (arr.take (arr.length / 2)).length < n := by simp; omega
      have h2 : (arr.drop (arr.length / 2)).length < n := by simp; omega
      exact mergeBy_sorted key _ _ (ih _ h1 _ rfl) (ih _ h2 _ rfl)

/-! ## Theorems: `Quick.sort` -/

/-- The loop of `Quick.sort` sends the elements before the last one that are strictly
less than the pivot to `left` and all the others to `right`, in their order. -/
theorem quick_partition_eq (key : α → Int) (pivot : α) (done todo : List α) (last : α)
    (left right : List α) :
    Quick.partition key (done ++ todo ++ [last]) pivot done.length left right =
      (left ++ todo.filter (fun x => decide (key x < key pivot)),
        right ++ todo.filter (fun x => !decide (key x < key pivot))) := by
  induction todo generalizing done left right with
  | nil =>
    rw [Quick.partition, dif_neg (by simp)]
    simp
  | cons x todo ih =>
    have e : done ++ x :: todo ++ [last] = done ++ x :: (todo ++ [last]) := by simp
    rw [e, Quick.partition, dif_pos (by simp; omega)]
    have hx2 : ∀ (hb : done.length < (done ++ x :: (todo ++ [last])).length),
        (done ++ x :: (todo ++ [last]))[done.length] = x := by
      intro hb
      have hx : (done ++ x :: (todo ++ [last]))[done.length]? = some x := by
        rw [List.getElem?_append_right (le_refl _)]
        simp
      rw [List.getElem?_eq_getElem hb] at hx
      exact Option.some.inj hx
    have hstep := ih (done ++ [x])
    simp only [List.length_append, List.length_singleton, List.append_assoc,
      List.singleton_append, List.cons_append, List.nil_append] at hstep
    rw [hx2]
    by_cases hlt : key x < key pivot
    · rw [if_pos hlt, hstep]
      simp [hlt]
    · rw [if_neg hlt, hstep]
      simp [hlt]

/-- One call of `Quick.sort` on an array whose last element is `pivot`. -/
theorem quick_sortBy_concat (key : α → Int) (init : List α) (pivot : α) :
    Quick.sortBy key (init ++ [pivot]) =
      Quick.sortBy key (init.filter (fun x => decide (key x < key pivot))) ++
        pivot :: Quick.sortBy key (init.filter (fun x => !decide (key x < key pivot))) := by
  rw [Quick.sortBy]
  split
  · rename_i hle
    have : init = [] := by
      cases init with
      | nil => rfl
      | cons a as => simp at hle
    subst this
    simp [Quick.sortBy]
  · have hp := quick_partition_eq key pivot [] init pivot [] []
    simp only [List.nil_append, List.length_nil] at hp
    simp [hp]

theorem quick_sortBy_perm (key : α → Int) (arr : List α) :
    (Quick.sortBy key arr).Perm arr := by
  generalize h : arr.length = n
  induction n using Nat.strong_induction_on generalizing arr with
  | _ n ih =>
    rcases List.eq_nil_or_concat arr with rfl | ⟨init, pivot, rfl⟩
    · simp [Quick.sortBy]
    · rw [List.concat_eq_append] at h ⊢
      rw [quick_sortBy_concat]
      have hn : n = init.length + 1 := by simpa using h.symm
      have h1 : (init.filter (fun x => decide (key x < key pivot))).length < n :=
        lt_of_le_of_lt (List.length_filter_le _ _) (by omega)
      have h2 : (init.filter (fun x => !decide (key x < key pivot))).length < n :=
        lt_of_le_of_lt (List.length_filter_le _ _) (by omega)
      refine (List.perm_middle).trans ?_
      refine List.Perm.trans ?_ (List.perm_append_singleton pivot init).symm
      refine List.Perm.cons pivot ?_
      refine ((ih _ h1 _ rfl).append (ih _ h2 _ rfl)).trans ?_
      exact List.filter_append_perm _ init

theorem quick_sortBy_sorted (key : α → Int) (arr : List α) :
    (Quick.sortBy key arr).Pairwise (fun x y => key x ≤ key y) := by
  generalize h : arr.length = n
  induction n using Nat.strong_induction_on generalizing arr with
  | _ n ih =>
    rcases List.eq_nil_or_concat arr with rfl | ⟨init, pivot, rfl⟩
    · simp [Quick.sortBy]
    · rw [List.concat_eq_append] at h ⊢
      rw [quick_sortBy_concat]
      have hn : n = init.length + 1 := by simpa using h.symm
      have h1 : (init.filter (fun x => decide (key x < key pivot))).length < n :=
        lt_of_le_of_lt (List.length_filter_le _ _) (by omega)
      have h2 : (init.filter (fun x => !decide (key x < key pivot))).length < n :=
        lt_of_le_of_lt (List.length_filter_le _ _) (by omega)
      rw [List.pairwise_append]
      refine ⟨ih _ h1 _ rfl, List.pairwise_cons.2 ⟨?_, ih _ h2 _ rfl⟩, ?_⟩
      · intro y hy
        have hy' := (quick_sortBy_perm key _).subset hy
        simp only [List.mem_filter, Bool.not_eq_true', decide_eq_false_iff_not] at hy'
        omega
      · intro x hx y hy
        have hx' := (quick_sortBy_perm key _).subset hx
        simp only [List.mem_filter, decide_eq_true_eq] at hx'
        rcases List.mem_cons.1 hy with rfl | hy
        · omega
        · have hy' := (quick_sortBy_perm key _).subset hy
          simp only [List.mem_filter, Bool.not_eq_true', decide_eq_false_iff_not] at hy'
          omega

/-! ## Theorems: order of equal keys under `merge` and `Merge.sort` -/

/-- When `right` is ordered by key, `merge` emits the elements of `right` with key `k`
before the elements of `left` with key `k`. -/
theorem mergeBy_filter_key (key : α → Int) (k : Int) (left right : List α)
    (hr : right.Pairwise (fun x y => key x ≤ key y)) :
    (mergeBy key left right).filter (fun x => decide (key x = k)) =
      right.filter (fun x => decide (key x = k)) ++
        left.filter (fun x => decide (key x = k)) := by
  induction left generalizing right with
  | nil => simp [mergeBy_nil_left]
  | cons l ls ihl =>
    induction right with
    | nil => simp [mergeBy_nil_right]
    | cons r rs ihr =>
      rw [mergeBy_cons_cons]
      split
      · rename_i hlt
        rw [List.filter_cons, ihl (r :: rs) hr]
        by_cases hk : key l = k
        · have hnone : (r :: rs).filter (fun x => decide (key x = k)) = [] := by
            rw [List.filter_eq_nil_iff]
            intro y hy
            rw [List.pairwise_cons] at hr
            rcases List.mem_cons.1 hy with h | h
            · subst h; simp; omega
            · have := hr.1 y h; simp; omega
          rw [hnone]
          simp [hk]
        · simp [hk]
      · rw [List.filter_cons, ihr (List.pairwise_cons.1 hr).2]
        by_cases hk : key r = k
        · simp [hk]
        · simp [hk]

/-- The elements with key `k` come out of `Merge.sort` in the reverse of their input
order. -/
theorem merge_sortBy_filter_key (key : α → Int) (k : Int) (arr : List α) :
    (Merge.sortBy key arr).filter (fun x => decide (key x = k)) =
      (arr.filter (fun x => decide (key x = k))).reverse := by
  generalize h : arr.length = n
  induction n using Nat.strong_induction_on generalizing arr with
  | _ n ih =>
    rw [Merge.sortBy]
    split
    · rename_i hle
      match arr, hle with
      | [], _ => rfl
      | [x], _ => by_cases hk : key x = k <;> simp [hk]
      | _ :: _ :: _, hle => simp at hle
    · have h1 : (arr.take (arr.length / 2)).length < n := by simp; omega
      have h2 : (arr.drop (arr.length / 2)).length < n := by simp; omega
      rw [mergeBy_filter_key key k _ _ (merge_sortBy_sorted key _), ih _ h1 _ rfl,
        ih _ h2 _ rfl, ← List.reverse_append, ← List.filter_append, List.take_append_drop]

/-! ## Theorems: `classifyInputCase` -/

theorem every_eq_true (arr : List Int) (cb : Int → Nat → List Int → Bool) :
    every arr cb = true ↔ ∀ (i : Nat) (h : i < arr.length), cb arr[i] i arr = true := by
  unfold every
  rw [List.all_eq_true]
  constructor
  · intro H i h
    exact H (i, arr[i]) (by rw [List.mk_mem_enum_iff_getElem?]; exact List.getElem?_eq_getElem h)
  · rintro H ⟨i, v⟩ hm
    rw [List.mk_mem_enum_iff_getElem?, List.getElem?_eq_some_iff] at hm
    obtain ⟨h, rfl⟩ := hm
    exact H i h

/-- Adjacent elements related by a transitive relation: all pairs are. -/
theorem pairwise_of_adjacent (R : Int → Int → Prop) (htrans : ∀ a b c, R a b → R b c → R a c)
    (arr : List Int)
    (H : ∀ (i : Nat) (_ : i < arr.length) (_ : i + 1 < arr.length), R arr[i] arr[i + 1]) :
    arr.Pairwise R := by
  rw [List.pairwise_iff_getElem]
  intro i j hi hj hij
  obtain ⟨d, rfl⟩ : ∃ d, j = i + 1 + d := ⟨j - i - 1, by omega⟩
  induction d with
  | zero => exact H i hi hj
  | succ d ih =>
    exact htrans _ _ _ (ih (by omega) (by omega)) (H (i + 1 + d) (by omega) hj)

theorem isSorted_iff (arr : List Int) : isSorted arr = true ↔ arr.Sorted (· ≤ ·) := by
  unfold isSorted
  rw [every_eq_true]
  constructor
  · intro H
    refine pairwise_of_adjacent (· ≤ ·) (fun a b c => le_trans) arr ?_
    intro i _ h
    have := H (i + 1) h
    simpa [leAt, List.getElem?_eq_getElem (show i < arr.length by omega)] using this
  · intro H i h
    rcases Nat.eq_zero_or_pos i with rfl | hpos
    · simp
    · have h1 : i - 1 < arr.length := by omega
      have := (List.pairwise_iff_getElem.1 H) (i - 1) i h1 h (by omega)
      simp [leAt, List.getElem?_eq_getElem h1, this]

theorem isReverseSorted_iff (arr : List Int) :
    isReverseSorted arr = true ↔ arr.Sorted (· ≥ ·) := by
  unfold isReverseSorted
  rw [every_eq_true]
  constructor
  · intro H
    refine pairwise_of_adjacent (· ≥ ·) (fun a b c => ge_trans) arr ?_
    intro i _ h
    have := H (i + 1) h
    simpa [geAt, List.getElem?_eq_getElem (show i < arr.length by omega)] using this
  · intro H i h
    rcases Nat.eq_zero_or_pos i with rfl | hpos
    · simp
    · have h1 : i - 1 < arr.length := by omega
      have := (List.pairwise_iff_getElem.1 H) (i - 1) i h1 h (by omega)
      simp [geAt, List.getElem?_eq_getElem h1, this]

theorem sorted_of_length_le_one (R : Int → Int → Prop) (arr : List Int)
    (h : arr.length ≤ 1) : arr.Sorted R := by
  match arr, h with
  | [], _ => exact List.Pairwise.nil
  | [x], _ => exact List.pairwise_singleton _ _
  | _ :: _ :: _, h => simp at h

/-! ## Theorems: reading and writing at the end of a prefix -/

theorem getElem?_prefix_length (pre : List α) (x : α) (rest : List α) :
    (pre ++ x :: rest)[pre.length]? = some x := by
  rw [List.getElem?_append_right (le_refl _)]
  simp

theorem getElem?_prefix_length_succ (pre : List α) (x y : α) (rest : List α) :
    (pre ++ x :: y :: rest)[pre.length + 1]? = some y := by
  rw [List.getElem?_append_right (by omega)]
  simp

theorem set_prefix_length (pre : List α) (x v : α) (rest : List α) :
    (pre ++ x :: rest).set pre.length v = pre ++ v :: rest := by
  simp

theorem set_prefix_length_succ (pre : List α) (x y v : α) (rest : List α) :
    (pre ++ x :: y :: rest).set (pre.length + 1) v = pre ++ x :: v :: rest := by
  rw [List.set_append_right _ _ (by omega)]
  simp

/-! ## Theorems: `Bubble.sort` -/

theorem bubble_inner_eq (key : α → Int) (r : List α) (x : α) (pre tail : List α) :
    Bubble.inner key tail.length pre.length (pre ++ x :: (r ++ tail)) =
      some (pre ++ (bubbleGo key x r ++ tail)) := by
  induction r generalizing x pre with
  | nil =>
    rw [Bubble.inner, if_neg (by simp; omega)]
    simp [bubbleGo]
  | cons y r ih =>
    rw [Bubble.inner, if_pos (by simp; omega)]
    rw [List.cons_append, getElem?_prefix_length, getElem?_prefix_length_succ]
    simp only []
    split
    · rename_i hgt
      rw [set_prefix_length, set_prefix_length_succ]
      have := ih x (pre ++ [y])
      simp only [List.length_append, List.length_singleton, List.append_assoc,
        List.singleton_append] at this
      rw [this]
      simp [bubbleGo, hgt]
    · rename_i hgt
      have := ih y (pre ++ [x])
      simp only [List.length_append, List.length_singleton, List.append_assoc,
        List.singleton_append] at this
      rw [this]
      simp [bubbleGo, hgt]

/-- A pass moves a maximum of `x :: r` to the end. -/
theorem bubbleGo_spec (key : α → Int) (r : List α) (x : α) :
    ∃ (q : List α) (mx : α), bubbleGo key x r = q ++ [mx] ∧ (q ++ [mx]).Perm (x :: r) ∧
      ∀ z ∈ q, key z ≤ key mx := by
  induction r generalizing x with
  | nil => exact ⟨[], x, rfl, List.Perm.refl _, by simp⟩
  | cons y r ih =>
    by_cases hgt : key x > key y
    · obtain ⟨q, mx, he, hp, hq⟩ := ih x
      refine ⟨y :: q, mx, by simp [bubbleGo, hgt, he], ?_, ?_⟩
      · exact ((hp.cons y).trans (List.Perm.swap x y r))
      · intro z hz
        rcases List.mem_cons.1 hz with rfl | hz
        · have hx : x ∈ q ++ [mx] := hp.symm.subset (List.mem_cons_self _ _)
          rcases List.mem_append.1 hx with h | h
          · have := hq x h; omega
          · simp at h; subst h; omega
        · exact hq z hz
    · obtain ⟨q, mx, he, hp, hq⟩ := ih y
      refine ⟨x :: q, mx, by simp [bubbleGo, hgt, he], hp.cons x, ?_⟩
      intro z hz
      rcases List.mem_cons.1 hz with rfl | hz
      · have hy : y ∈ q ++ [mx] := hp.symm.subset (List.mem_cons_self _ _)
        rcases List.mem_append.1 hy with h | h
        · have := hq y h; omega
        · simp at h; subst h; omega
      · exact hq z hz

/-- The outer loop, entered at pass `s.length` with the last `s.length` elements in their
final places, returns the array sorted. -/
theorem bubble_outer_spec (key : α → Int) (p s : List α)
    (hs : s.Pairwise (fun x y => key x ≤ key y))
    (hps : ∀ u ∈ p, ∀ v ∈ s, key u ≤ key v) :
    ∃ out, Bubble.outer key s.length (p ++ s) = some out ∧
      out.Pairwise (fun x y => key x ≤ key y) ∧ out.Perm (p ++ s) := by
  generalize hn : p.length = n
  induction n generalizing p s with
  | zero =>
    have : p = [] := List.length_eq_zero.1 hn
    subst this
    refine ⟨s, ?_, hs, List.Perm.refl _⟩
    rw [Bubble.outer, if_neg (by simp)]
    simp
  | succ n ih =>
    match p, hn with
    | x :: r, hn =>
      obtain ⟨q, mx, he, hp, hq⟩ := bubbleGo_spec key r x
      have hinner : Bubble.inner key s.length 0 (x :: r ++ s) = some (q ++ mx :: s) := by
        have := bubble_inner_eq key r x [] s
        simpa [he] using this
      have hmx : mx ∈ x :: r := hp.subset (by simp)
      have hqsub : ∀ z ∈ q, z ∈ x :: r := fun z hz => hp.subset (by simp [hz])
      have hs' : (mx :: s).Pairwise (fun x y => key x ≤ key y) :=
        List.pairwise_cons.2 ⟨fun v hv => hps mx hmx v hv, hs⟩
      have hqs : ∀ u ∈ q, ∀ v ∈ mx :: s, key u ≤ key v := by
        intro u hu v hv
        rcases List.mem_cons.1 hv with rfl | hv
        · exact hq u hu
        · exact hps u (hqsub u hu) v hv
      have hqlen : q.length = n := by
        have := hp.length_eq
        simp at this hn
        omega
      obtain ⟨out, ho, hsorted, hperm⟩ := ih q (mx :: s) hs' hqs hqlen
      refine ⟨out, ?_, hsorted, hperm.trans ?_⟩
      · rw [Bubble.outer, if_pos (by simp; omega)]
        split
        · rename_i a' heq
          rw [hinner] at heq
          cases heq
          simpa using ho
        · rename_i heq
          rw [hinner] at heq
          cases heq
      · have : (q ++ mx :: s).Perm ((q ++ [mx]) ++ s) := by simp
        exact this.trans (hp.append_right s)

theorem bubble_sortBy_spec (key : α → Int) (arr : List α) :
    ∃ out, Bubble.sortBy key arr = some out ∧
      out.Pairwise (fun x y => key x ≤ key y) ∧ out.Perm arr := by
  have := bubble_outer_spec key arr [] List.Pairwise.nil (by simp)
  simpa [Bubble.sortBy] using this

/-! ## Theorems: `Selection.sort` -/

/-- The inner loop returns an index of a least element among `a[minIdx]` and
`a[j], a[j+1], ...`. -/
theorem selection_inner_spec (key : α → Int) (a : List α) (j minIdx : Nat) (v0 : α)
    (h0 : a[minIdx]? = some v0) :
    ∃ (m : Nat) (am : α), Selection.inner key a j minIdx = some m ∧ a[m]? = some am ∧
      (m = minIdx ∨ j ≤ m) ∧ key am ≤ key v0 ∧
      ∀ (k : Nat) (v : α), j ≤ k → a[k]? = some v → key am ≤ key v := by
  generalize hn : a.length - j = n
  induction n using Nat.strong_induction_on generalizing j minIdx v0 with
  | _ n ih =>
    rw [Selection.inner]
    by_cases hj : j < a.length
    · rw [if_pos hj, List.getElem?_eq_getElem hj, h0]
      simp only []
      by_cases hlt : key a[j] < key v0
      · rw [if_pos hlt]
        obtain ⟨m, am, he, hm, hor, hle, hall⟩ :=
          ih (a.length - (j + 1)) (by omega) (j + 1) j a[j] (List.getElem?_eq_getElem hj) rfl
        refine ⟨m, am, he, hm, Or.inr (by omega), by omega, ?_⟩
        intro k v hk hv
        rcases Nat.eq_or_lt_of_le hk with rfl | hk'
        · rw [List.getElem?_eq_getElem hj] at hv
          cases hv
          exact hle
        · exact hall k v hk' hv
      · rw [if_neg hlt]
        obtain ⟨m, am, he, hm, hor, hle, hall⟩ :=
          ih (a.length - (j + 1)) (by omega) (j + 1) minIdx v0 h0 rfl
        refine ⟨m, am, he, hm, by omega, hle, ?_⟩
        intro k v hk hv
        rcases Nat.eq_or_lt_of_le hk with rfl | hk'
        · rw [List.getElem?_eq_getElem hj] at hv
          cases hv
          omega
        · exact hall k v hk' hv
    · rw [if_neg hj]
      refine ⟨minIdx, v0, rfl, h0, Or.inl rfl, le_refl _, ?_⟩
      intro k v hk hv
      have := (List.getElem?_eq_some_iff.1 hv).1
      omega


/-- The exchange `[a[i], a[m]] = [a[m], a[i]]` at the start `i` of the suffix `x :: s`. -/
theorem swap_prefix_length (p : List α) (x : α) (s : List α) (m : Nat) (am : α)
    (hor : m = p.length ∨ p.length + 1 ≤ m) (hm : (p ++ x :: s)[m]? = some am) :
    ∃ s2, ((p ++ x :: s).set p.length am).set m x = p ++ am :: s2 ∧
      (am :: s2).Perm (x :: s) := by
  rcases hor with rfl | hge
  · rw [getElem?_prefix_length] at hm
    cases hm
    exact ⟨s, by simp, List.Perm.refl _⟩
  · obtain ⟨d, rfl⟩ : ∃ d, m = p.length + 1 + d := ⟨m - p.length - 1, by omega⟩
    have hd : s[d]? = some am := by
      rw [List.getElem?_append_right (by omega)] at hm
      have h1 : p.length + 1 + d - p.length = d + 1 := by omega
      rw [h1] at hm
      simpa using hm
    obtain ⟨hdlt, hget⟩ := List.getElem?_eq_some_iff.1 hd
    have hs : s = s.take d ++ am :: s.drop (d + 1) := by
      rw [← hget, ← List.drop_eq_getElem_cons hdlt, List.take_append_drop]
    have hlen : (s.take d).length = d := by simp; omega
    refine ⟨s.take d ++ x :: s.drop (d + 1), ?_, ?_⟩
    · rw [set_prefix_length]
      have h2 : p ++ am :: s = (p ++ am :: s.take d) ++ am :: s.drop (d + 1) := by
        conv_lhs => rw [hs]
        simp
      have h3 : p.length + 1 + d = (p ++ am :: s.take d).length := by simp [hlen]; omega
      rw [h2, h3, set_prefix_length]
      simp
    · conv_rhs => rw [hs]
      have h4 : (s.take d ++ x :: s.drop (d + 1)).Perm (x :: (s.take d ++ s.drop (d + 1))) :=
        List.perm_middle
      have h5 : (s.take d ++ am :: s.drop (d + 1)).Perm (am :: (s.take d ++ s.drop (d + 1))) :=
        List.perm_middle
      exact ((h4.cons am).trans (List.Perm.swap x am _)).trans (h5.symm.cons x)


/-- The outer loop, entered at index `p.length` with the prefix `p` in its final place,
returns the array sorted. -/
theorem selection_outer_spec (key : α → Int) (p s : List α)
    (hp : p.Pairwise (fun x y => key x ≤ key y))
    (hps : ∀ u ∈ p, ∀ v ∈ s, key u ≤ key v) :
    ∃ out, Selection.outer key p.length (p ++ s) = some out ∧
      out.Pairwise (fun x y => key x ≤ key y) ∧ out.Perm (p ++ s) := by
  generalize hn : s.length = n
  induction n generalizing p s with
  | zero =>
    have : s = [] := List.length_eq_zero.1 hn
    subst this
    refine ⟨p, ?_, hp, by simp⟩
    rw [Selection.outer, if_neg (by simp)]
    simp
  | succ n ih =>
    match s, hn with
    | x :: s, hn =>
      obtain ⟨m, am, he, hm, hor, hle, hall⟩ :=
        selection_inner_spec key (p ++ x :: s) (p.length + 1) p.length x
          (getElem?_prefix_length p x s)
      obtain ⟨s2, hset, hperm⟩ := swap_prefix_length p x s m am hor hm
      have ham : am ∈ x :: s := hperm.subset (List.mem_cons_self _ _)
      have hs2 : ∀ v ∈ s2, v ∈ x :: s := fun v hv => hperm.subset (List.mem_cons_of_mem _ hv)
      have hmin : ∀ v ∈ x :: s, key am ≤ key v := by
        intro v hv
        rcases List.mem_cons.1 hv with rfl | hv
        · exact hle
        · obtain ⟨k, hk⟩ := List.mem_iff_getElem?.1 hv
          refine hall (p.length + 1 + k) v (by omega) ?_
          rw [List.getElem?_append_right (by omega)]
          have h1 : p.length + 1 + k - p.length = k + 1 := by omega
          rw [h1]
          simpa using hk
      have hp' : (p ++ [am]).Pairwise (fun x y => key x ≤ key y) := by
        rw [List.pairwise_append]
        refine ⟨hp, List.pairwise_singleton _ _, ?_⟩
        intro u hu v hv
        simp at hv
        subst hv
        exact hps u hu _ ham
      have hps' : ∀ u ∈ p ++ [am], ∀ v ∈ s2, key u ≤ key v := by
        intro u hu v hv
        rcases List.mem_append.1 hu with hu | hu
        · exact hps u hu v (hs2 v hv)
        · simp at hu
          subst hu
          exact hmin v (hs2 v hv)
      have hlen : s2.length = n := by
        have := hperm.length_eq
        simp at this hn
        omega
      obtain ⟨out, ho, hsorted, hpo⟩ := ih (p ++ [am]) s2 hp' hps' hlen
      refine ⟨out, ?_, hsorted, hpo.trans ?_⟩
      · rw [Selection.outer, if_pos (by simp), he]
        simp only []
        rw [hm, getElem?_prefix_length]
        simp only []
        rw [hset]
        simpa using ho
      · simp only [List.append_assoc, List.singleton_append]
        exact List.Perm.append_left p hperm

theorem selection_sortBy_spec (key : α → Int) (arr : List α) :
    ∃ out, Selection.sortBy key arr = some out ∧
      out.Pairwise (fun x y => key x ≤ key y) ∧ out.Perm arr := by
  have := selection_outer_spec key [] arr List.Pairwise.nil (by simp)
  simpa [Selection.sortBy] using this

/-! ## Theorems: `Insertion.sort` -/

/-- The `while` loop entered at the end of `front`: the elements `shifted` at the end of
`front` with key above `key k` move one place to the right, and `j + 1` is the index after
the elements `kept` that stay. -/
theorem insertion_inner_spec (key : α → Int) (k : α) (front : List α) (g : α)
    (back : List α) :
    ∃ (kept shifted : List α) (d : α), front = kept ++ shifted ∧
      (∀ z ∈ shifted, key k < key z) ∧
      (∀ z, kept.getLast? = some z → key z ≤ key k) ∧
      Insertion.inner key k ((front.length : Int) - 1) (front ++ g :: back) =
        some (kept ++ d :: (shifted ++ back), (kept.length : Int) - 1) := by
  induction front using List.reverseRecOn generalizing g back with
  | nil =>
    refine ⟨[], [], g, rfl, by simp, by simp, ?_⟩
    rw [Insertion.inner, if_neg (by simp)]
    simp
  | append_singleton f y ih =>
    have hj : ((f ++ [y]).length : Int) - 1 = (f.length : Int) := by simp
    rw [hj]
    by_cases hgt : key y > key k
    · obtain ⟨kept, shifted, d, hf, hsh, hk, he⟩ := ih y (y :: back)
      refine ⟨kept, shifted ++ [y], d, by rw [hf]; simp, ?_, hk, ?_⟩
      · intro z hz
        rcases List.mem_append.1 hz with hz | hz
        · exact hsh z hz
        · simp at hz; subst hz; omega
      · rw [Insertion.inner, if_pos (by omega)]
        have h1 : (f ++ [y] ++ g :: back) = f ++ y :: g :: back := by simp
        have h2 : ((f.length : Int)).toNat = f.length := by simp
        have h3 : ((f.length : Int) + 1).toNat = f.length + 1 := by omega
        rw [h1, h2, h3, getElem?_prefix_length]
        simp only []
        rw [if_pos hgt, if_pos (by simp), set_prefix_length_succ, he]
        simp
    · refine ⟨f ++ [y], [], g, by simp, by simp, ?_, ?_⟩
      · intro z hz
        simp at hz
        subst hz
        omega
      · rw [Insertion.inner, if_pos (by omega)]
        have h1 : (f ++ [y] ++ g :: back) = f ++ y :: g :: back := by simp
        have h2 : ((f.length : Int)).toNat = f.length := by simp
        rw [h1, h2, getElem?_prefix_length]
        simp only []
        rw [if_neg hgt]
        simp


/-- The outer loop, entered at index `p.length` with the prefix `p` sorted, returns the
array sorted. -/
theorem insertion_outer_spec (key : α → Int) (p rest : List α)
    (hp : p.Pairwise (fun x y => key x ≤ key y)) :
    ∃ out, Insertion.outer key p.length (p ++ rest) = some out ∧
      out.Pairwise (fun x y => key x ≤ key y) ∧ out.Perm (p ++ rest) := by
  induction rest generalizing p with
  | nil =>
    refine ⟨p, ?_, hp, by simp⟩
    rw [Insertion.outer, if_neg (by simp)]
    simp
  | cons k rest ih =>
    obtain ⟨kept, shifted, d, hf, hsh, hk, he⟩ := insertion_inner_spec key k p k rest
    have hkept : ∀ z ∈ kept, key z ≤ key k := by
      intro z hz
      rcases List.eq_nil_or_concat kept with hnil | ⟨init, lst, hc⟩
      · rw [hnil] at hz; simp at hz
      · rw [List.concat_eq_append] at hc
        have hl : key lst ≤ key k := hk lst (by rw [hc]; simp)
        rw [hc] at hz
        rcases List.mem_append.1 hz with hz | hz
        · have hpk : kept.Pairwise (fun x y => key x ≤ key y) := by
            rw [hf] at hp
            exact (List.pairwise_append.1 hp).1
          rw [hc] at hpk
          have := (List.pairwise_append.1 hpk).2.2 z hz lst (by simp)
          omega
        · simp at hz; subst hz; exact hl
    have hp2 : (kept ++ k :: shifted).Pairwise (fun x y => key x ≤ key y) := by
      rw [hf] at hp
      obtain ⟨h1, h2, h3⟩ := List.pairwise_append.1 hp
      rw [List.pairwise_append]
      refine ⟨h1, List.pairwise_cons.2 ⟨fun z hz => le_of_lt (hsh z hz), h2⟩, ?_⟩
      intro u hu v hv
      rcases List.mem_cons.1 hv with rfl | hv
      · exact hkept u hu
      · exact h3 u hu v hv
    have hlen : (kept ++ k :: shifted).length = p.length + 1 := by
      rw [hf]; simp; omega
    obtain ⟨out, ho, hsorted, hperm⟩ := ih (kept ++ k :: shifted) hp2
    refine ⟨out, ?_, hsorted, hperm.trans ?_⟩
    · rw [Insertion.outer, if_pos (by simp), getElem?_prefix_length]
      simp only []
      split
      · rename_i a1 j heq
        rw [he] at heq
        simp only [Option.some.injEq, Prod.mk.injEq] at heq
        obtain ⟨rfl, rfl⟩ := heq
        have h1 : ((kept.length : Int) - 1 + 1).toNat = kept.length := by omega
        rw [h1, if_pos ⟨by omega, by simp⟩, set_prefix_length]
        rw [hlen] at ho
        simpa using ho
      · rename_i heq
        rw [he] at heq
        cases heq
    · rw [hf]
      simp only [List.append_assoc, List.cons_append]
      exact List.Perm.append_left kept List.perm_middle.symm

theorem insertion_sortBy_spec (key : α → Int) (arr : List α) :
    ∃ out, Insertion.sortBy key arr = some out ∧
      out.Pairwise (fun x y => key x ≤ key y) ∧ out.Perm arr := by
  cases arr with
  | nil =>
    refine ⟨[], ?_, List.Pairwise.nil, List.Perm.refl _⟩
    rw [Insertion.sortBy, Insertion.outer, if_neg (by simp)]
  | cons x t =>
    have := insertion_outer_spec key [x] t (List.pairwise_singleton _ _)
    simpa [Insertion.sortBy] using this

/-! ## Theorems: the loop of `handleSort` -/

/-- Two non-decreasing arrangements of the same numbers are equal. -/
theorem sorted_perm_unique (arr out1 out2 : List Int)
    (h1 : out1.Sorted (· ≤ ·)) (p1 : out1.Perm arr)
    (h2 : out2.Sorted (· ≤ ·)) (p2 : out2.Perm arr) : out1 = out2 :=
  List.eq_of_perm_of_sorted (p1.trans p2.symm) h1 h2

theorem bubble_sort_eq (arr : List Int) : Bubble.sort arr = some (Merge.sort arr) := by
  obtain ⟨out, h, hs, hp⟩ := bubble_sortBy_spec id arr
  rw [Bubble.sort, h, sorted_perm_unique arr out (Merge.sort arr) hs hp
    (merge_sortBy_sorted id arr) (merge_sortBy_perm id arr)]

theorem selection_sort_eq (arr : List Int) : Selection.sort arr = some (Merge.sort arr) := by
  obtain ⟨out, h, hs, hp⟩ := selection_sortBy_spec id arr
  rw [Selection.sort, h, sorted_perm_unique arr out (Merge.sort arr) hs hp
    (merge_sortBy_sorted id arr) (merge_sortBy_perm id arr)]

theorem insertion_sort_eq (arr : List Int) : Insertion.sort arr = some (Merge.sort arr) := by
  obtain ⟨out, h, hs, hp⟩ := insertion_sortBy_spec id arr
  rw [Insertion.sort, h, sorted_perm_unique arr out (Merge.sort arr) hs hp
    (merge_sortBy_sorted id arr) (merge_sortBy_perm id arr)]

theorem quick_sort_eq (arr : List Int) : Quick.sort arr = Merge.sort arr :=
  sorted_perm_unique arr _ _ (quick_sortBy_sorted id arr) (quick_sortBy_perm id arr)
    (merge_sortBy_sorted id arr) (merge_sortBy_perm id arr)

/-- The records of a run of the loop, written out. -/
theorem handleSortResults_eq (now : Nat → Int) (arr : List Int) :
    handleSortResults now arr = some
      [⟨"Bubble", now 1 - now 0, classifyInputCase arr "Bubble", join (Merge.sort arr),
          "O(n)", "O(n^2)", "O(n^2)"⟩,
       ⟨"Selection", now 3 - now 2, classifyInputCase arr "Selection", join (Merge.sort arr),
          "O(n^2)", "O(n^2)", "O(n^2)"⟩,
       ⟨"Insertion", now 5 - now 4, classifyInputCase arr "Insertion", join (Merge.sort arr),
          "O(n)", "O(n^2)", "O(n^2)"⟩,
       ⟨"Merge", now 7 - now 6, classifyInputCase arr "Merge", join (Merge.sort arr),
          "O(n log n)", "O(n log n)", "O(n log n)"⟩,
       ⟨"Quick", now 9 - now 8, classifyInputCase arr "Quick", join (Merge.sort arr),
          "O(n log n)", "O(n log n)", "O(n^2)"⟩] := by
  simp only [handleSortResults, sortingAlgorithms, handleSortLoop, bubble_sort_eq,
    selection_sort_eq, insertion_sort_eq, quick_sort_eq, List.nil_append, List.cons_append]

/-! ## Theorems: the sort functions on the store -/

theorem Heap.Preserved.refl (h : Heap) : Heap.Preserved h h :=
  ⟨le_refl _, fun _ _ => rfl⟩

theorem Heap.Preserved.trans {h1 h2 h3 : Heap} (a : Heap.Preserved h1 h2)
    (b : Heap.Preserved h2 h3) : Heap.Preserved h1 h3 :=
  ⟨le_trans a.1 b.1, fun r0 hr => (b.2 r0 (lt_of_lt_of_le hr a.1)).trans (a.2 r0 hr)⟩

theorem Heap.Preserved.alloc (h : Heap) (xs : List Int) :
    Heap.Preserved h (Heap.alloc h xs).1 := by
  refine ⟨by simp [Heap.alloc], fun r0 hr => ?_⟩
  simp only [Heap.alloc]
  exact List.getElem?_append_left hr

theorem Heap.Preserved.get {h h2 : Heap} (a : Heap.Preserved h h2) {r : Nat} {xs : List Int}
    (hx : h[r]? = some xs) : h2[r]? = some xs := by
  rw [a.2 r (List.getElem?_eq_some_iff.1 hx).1, hx]

theorem Heap.alloc_get (h : Heap) (xs : List Int) :
    (Heap.alloc h xs).1[(Heap.alloc h xs).2]? = some xs := by
  simp only [Heap.alloc]
  rw [List.getElem?_append_right (le_refl _)]
  simp

/-- Loops on a copy of the input array leave the store they started from as it was. -/
theorem refines_of_copy (body g : List Int → Option (List Int))
    (f : Heap → Nat → Option (Heap × Nat))
    (hf : ∀ h arr, f h arr =
      match h[arr]? with
      | some xs =>
        match Heap.modify (Heap.alloc h xs).1 (Heap.alloc h xs).2 body with
        | some h1 => some (h1, (Heap.alloc h xs).2)
        | none => none
      | none => none)
    (hg : ∀ xs, ∃ out, body xs = some out ∧ g xs = some out) :
    RefinesSort f g := by
  intro h arr xs hx
  obtain ⟨out, hb, hgo⟩ := hg xs
  refine ⟨h ++ [out], h.length, out, ?_, hgo, ?_, ?_⟩
  · rw [hf, hx]
    simp only [Heap.modify, Heap.alloc_get, hb]
    simp [Heap.alloc]
  · rw [List.getElem?_append_right (le_refl _)]
    simp
  · exact Heap.Preserved.alloc h out

theorem bubble_sortRef_refines : RefinesSort Bubble.sortRef Bubble.sort :=
  refines_of_copy (Bubble.outer id 0) Bubble.sort Bubble.sortRef (fun _ _ => rfl)
    (fun xs => by
      obtain ⟨out, h, -, -⟩ := bubble_sortBy_spec id xs
      exact ⟨out, h, h⟩)

theorem selection_sortRef_refines : RefinesSort Selection.sortRef Selection.sort :=
  refines_of_copy (Selection.outer id 0) Selection.sort Selection.sortRef (fun _ _ => rfl)
    (fun xs => by
      obtain ⟨out, h, -, -⟩ := selection_sortBy_spec id xs
      exact ⟨out, h, h⟩)

theorem insertion_sortRef_refines : RefinesSort Insertion.sortRef Insertion.sort :=
  refines_of_copy (Insertion.outer id 1) Insertion.sort Insertion.sortRef (fun _ _ => rfl)
    (fun xs => by
      obtain ⟨out, h, -, -⟩ := insertion_sortBy_spec id xs
      exact ⟨out, h, h⟩)

/-- The loop of `merge` on the store computes what the loop on values computes, and
changes the two arrays it is given and no other. -/
theorem mergeLoopRef_spec (fuel : Nat) (h : Heap) (left right : Nat) (result ls rs : List Int)
    (hl : h[left]? = some ls) (hr : h[right]? = some rs) (hne : left ≠ right)
    (hfuel : ls.length + rs.length < fuel) :
    ∃ h2 : Heap, mergeLoopRef fuel h left right result = some (h2, mergeLoop id ls rs result) ∧
      h2.length = h.length ∧ ∀ r0 : Nat, r0 ≠ left → r0 ≠ right → h2[r0]? = h[r0]? := by
  induction fuel generalizing h result ls rs with
  | zero => omega
  | succ fuel ih =>
    have hlb : left < h.length := (List.getElem?_eq_some_iff.1 hl).1
    have hrb : right < h.length := (List.getElem?_eq_some_iff.1 hr).1
    rw [mergeLoopRef, hl, hr]
    match ls, rs with
    | [], rs =>
      refine ⟨h, ?_, rfl, fun _ _ _ => rfl⟩
      simp [mergeLoop_nil_left]
    | l :: ls, [] =>
      refine ⟨h, ?_, rfl, fun _ _ _ => rfl⟩
      simp [mergeLoop_nil_right]
    | l :: ls, r :: rs =>
      simp only []
      rw [mergeLoop_cons_cons]
      by_cases hlt : l < r
      · rw [if_pos hlt, if_pos (by simpa using hlt)]
        have h1 : (h.set left ls)[left]? = some ls := by
          rw [List.getElem?_set_self hlb]
        have h2 : (h.set left ls)[right]? = some (r :: rs) := by
          rw [List.getElem?_set_ne hne, hr]
        obtain ⟨h3, he, hlen, hfr⟩ := ih (h.set left ls) (result ++ [l]) ls (r :: rs) h1 h2
          (by simp at hfuel ⊢; omega)
        refine ⟨h3, he, by simpa using hlen, fun r0 h0l h0r => ?_⟩
        rw [hfr r0 h0l h0r, List.getElem?_set_ne (Ne.symm h0l)]
      · rw [if_neg hlt, if_neg (by simpa using hlt)]
        have h1 : (h.set right rs)[right]? = some rs := by
          rw [List.getElem?_set_self hrb]
        have h2 : (h.set right rs)[left]? = some (l :: ls) := by
          rw [List.getElem?_set_ne (Ne.symm hne), hl]
        obtain ⟨h3, he, hlen, hfr⟩ := ih (h.set right rs) (result ++ [r]) (l :: ls) rs h2 h1
          (by simp at hfuel ⊢; omega)
        refine ⟨h3, he, by simpa using hlen, fun r0 h0l h0r => ?_⟩
        rw [hfr r0 h0l h0r, List.getElem?_set_ne (Ne.symm h0r)]

/-- `merge` on the store returns a new array with what `merge` on values computes, and
changes the two arrays it is given and no other. -/
theorem mergeRef_spec (h : Heap) (left right : Nat) (ls rs : List Int)
    (hl : h[left]? = some ls) (hr : h[right]? = some rs) (hne : left ≠ right) :
    ∃ h2 : Heap, mergeRef h left right = some (h2 ++ [mergeBy id ls rs], h2.length) ∧
      h2.length = h.length ∧ ∀ r0 : Nat, r0 ≠ left → r0 ≠ right → h2[r0]? = h[r0]? := by
  obtain ⟨h2, he, hlen, hfr⟩ :=
    mergeLoopRef_spec (ls.length + rs.length + 1) h left right [] ls rs hl hr hne (by omega)
  refine ⟨h2, ?_, hlen, hfr⟩
  rw [mergeRef, hl, hr]
  simp only [he, Heap.alloc, mergeBy]


theorem merge_sort_of_short (xs : List Int) (h : xs.length ≤ 1) : Merge.sort xs = xs := by
  rw [Merge.sort, Merge.sortBy, if_pos h]

theorem merge_sort_of_long (xs : List Int) (h : ¬ xs.length ≤ 1) :
    Merge.sort xs =
      mergeBy id (Merge.sort (xs.take (xs.length / 2))) (Merge.sort (xs.drop (xs.length / 2))) := by
  rw [Merge.sort, Merge.sortBy, if_neg h]
  rfl

/-- `Merge.sort` on the store, with enough fuel, returns an array holding what `Merge.sort`
on values computes (the input array itself or a new one) and leaves every array object of
the store it started from as it was. -/
theorem merge_sortRefFuel_spec (fuel : Nat) (h : Heap) (arr : Nat) (xs : List Int)
    (hx : h[arr]? = some xs) (hfuel : xs.length < fuel) :
    ∃ (h2 : Heap) (r : Nat), Merge.sortRefFuel fuel h arr = some (h2, r) ∧
      h2[r]? = some (Merge.sort xs) ∧ Heap.Preserved h h2 ∧ (r = arr ∨ h.length ≤ r) := by
  induction fuel generalizing h arr xs with
  | zero => omega
  | succ fuel ih =>
    rw [Merge.sortRefFuel, hx]
    simp only []
    by_cases hlen : xs.length ≤ 1
    · rw [if_pos hlen]
      exact ⟨h, arr, rfl, by rw [merge_sort_of_short xs hlen, hx], Heap.Preserved.refl h,
        Or.inl rfl⟩
    · rw [if_neg hlen]
      have harr : arr < h.length := (List.getElem?_eq_some_iff.1 hx).1
      -- the first half
      obtain ⟨h2, left, e1, g1, p1, o1⟩ :=
        ih (Heap.alloc h (xs.take (xs.length / 2))).1 (Heap.alloc h (xs.take (xs.length / 2))).2
          (xs.take (xs.length / 2)) (Heap.alloc_get _ _) (by simp; omega)
      have p01 := (Heap.Preserved.alloc h (xs.take (xs.length / 2))).trans p1
      have hx2 : h2[arr]? = some xs := p01.get hx
      have hleft : left < h2.length := (List.getElem?_eq_some_iff.1 g1).1
      have hleft0 : h.length ≤ left := by
        rcases o1 with o1 | o1
        · rw [o1]; simp [Heap.alloc]
        · simp [Heap.alloc] at o1; omega
      -- the second half
      obtain ⟨h4, right, e2, g2, p2, o2⟩ :=
        ih (Heap.alloc h2 (xs.drop (xs.length / 2))).1 (Heap.alloc h2 (xs.drop (xs.length / 2))).2
          (xs.drop (xs.length / 2)) (Heap.alloc_get _ _) (by simp; omega)
      have p23 := (Heap.Preserved.alloc h2 (xs.drop (xs.length / 2))).trans p2
      have hright0 : h2.length ≤ right := by
        rcases o2 with o2 | o2
        · rw [o2]; simp [Heap.alloc]
        · simp [Heap.alloc] at o2; omega
      have g1' : h4[left]? = some (Merge.sort (xs.take (xs.length / 2))) := p23.get g1
      -- the merge
      obtain ⟨h5, e3, l3, f3⟩ := mergeRef_spec h4 left right _ _ g1' g2 (by omega)
      refine ⟨h5 ++ [mergeBy id (Merge.sort (xs.take (xs.length / 2)))
        (Merge.sort (xs.drop (xs.length / 2)))], h5.length, ?_, ?_, ?_, ?_⟩
      · rw [e1]
        simp only [hx2, e2, e3]
      · rw [List.getElem?_append_right (le_refl _), merge_sort_of_long xs hlen]
        simp
      · have hle : h.length ≤ h4.length := le_trans p01.1 p23.1
        refine ⟨by simp; omega, fun r0 hr0 => ?_⟩
        rw [List.getElem?_append_left (by omega), f3 r0 (by omega) (by omega)]
        exact (p01.trans p23).2 r0 hr0
      · right
        have hle : h.length ≤ h4.length := le_trans p01.1 p23.1
        omega

theorem merge_sortRef_refines : RefinesSort Merge.sortRef (fun arr => some (Merge.sort arr)) := by
  intro h arr xs hx
  obtain ⟨h2, r, e, g, p, -⟩ := merge_sortRefFuel_spec (xs.length + 1) h arr xs hx (by omega)
  exact ⟨h2, r, Merge.sort xs, by rw [Merge.sortRef, hx]; exact e, rfl, g, p⟩

theorem quick_sort_of_short (xs : List Int) (h : xs.length ≤ 1) : Quick.sort xs = xs := by
  rw [Quick.sort, Quick.sortBy, dif_pos h]

theorem quick_sort_of_long (xs : List Int) (h : ¬ xs.length ≤ 1) :
    Quick.sort xs =
      Quick.sort (Quick.partition id xs xs[xs.length - 1] 0 [] []).1 ++
        xs[xs.length - 1] :: Quick.sort (Quick.partition id xs xs[xs.length - 1] 0 [] []).2 := by
  rw [Quick.sort, Quick.sortBy, dif_neg h]
  rfl

/-- `Quick.sort` on the store, with enough fuel, returns an array holding what `Quick.sort`
on values computes (the input array itself or a new one) and leaves every array object of
the store it started from as it was. -/
theorem quick_sortRefFuel_spec (fuel : Nat) (h : Heap) (arr : Nat) (xs : List Int)
    (hx : h[arr]? = some xs) (hfuel : xs.length < fuel) :
    ∃ (h2 : Heap) (r : Nat), Quick.sortRefFuel fuel h arr = some (h2, r) ∧
      h2[r]? = some (Quick.sort xs) ∧ Heap.Preserved h h2 := by
  induction fuel generalizing h arr xs with
  | zero => omega
  | succ fuel ih =>
    rw [Quick.sortRefFuel, hx]
    simp only []
    by_cases hlen : xs.length ≤ 1
    · rw [dif_pos hlen]
      exact ⟨h, arr, rfl, by rw [quick_sort_of_short xs hlen, hx], Heap.Preserved.refl h⟩
    · rw [dif_neg hlen]
      have hparts := quick_partition_length id xs xs[xs.length - 1] 0 [] [] (by omega)
      simp only [List.length_nil, Nat.zero_add, Nat.sub_zero] at hparts
      generalize hL : (Quick.partition id xs xs[xs.length - 1] 0 [] []).1 = L at hparts ⊢
      generalize hR : (Quick.partition id xs xs[xs.length - 1] 0 [] []).2 = R at hparts ⊢
      have hLlen : L.length < fuel := by omega
      have hRlen : R.length < fuel := by omega
      have pa := Heap.Preserved.alloc h L
      have pb := Heap.Preserved.alloc (Heap.alloc h L).1 R
      have gl : (Heap.alloc (Heap.alloc h L).1 R).1[(Heap.alloc h L).2]? = some L :=
        pb.get (Heap.alloc_get h L)
      obtain ⟨h3, sl, e1, g1, p1⟩ := ih _ _ L gl hLlen
      have gr : h3[(Heap.alloc (Heap.alloc h L).1 R).2]? = some R :=
        p1.get (Heap.alloc_get _ R)
      obtain ⟨h4, sr, e2, g2, p2⟩ := ih _ _ R gr hRlen
      refine ⟨(Heap.alloc h4 (Quick.sort L ++ xs[xs.length - 1] :: Quick.sort R)).1,
        (Heap.alloc h4 (Quick.sort L ++ xs[xs.length - 1] :: Quick.sort R)).2, ?_, ?_, ?_⟩
      · rw [e1]
        simp only [g1, e2, g2]
      · rw [Heap.alloc_get, quick_sort_of_long xs hlen, hL, hR]
      · exact (((pa.trans pb).trans p1).trans p2).trans (Heap.Preserved.alloc h4 _)

theorem quick_sortRef_refines : RefinesSort Quick.sortRef (fun arr => some (Quick.sort arr)) := by
  intro h arr xs hx
  obtain ⟨h2, r, e, g, p⟩ := quick_sortRefFuel_spec (xs.length + 1) h arr xs hx (by omega)
  exact ⟨h2, r, Quick.sort xs, by rw [Quick.sortRef, hx]; exact e, rfl, g, p⟩


theorem sortingAlgorithmsRef_refines :
    List.Forall₂ EntryRefines sortingAlgorithmsRef sortingAlgorithms := by
  unfold sortingAlgorithmsRef sortingAlgorithms
  refine List.Forall₂.cons ⟨rfl, rfl, bubble_sortRef_refines⟩ ?_
  refine List.Forall₂.cons ⟨rfl, rfl, selection_sortRef_refines⟩ ?_
  refine List.Forall₂.cons ⟨rfl, rfl, insertion_sortRef_refines⟩ ?_
  refine List.Forall₂.cons ⟨rfl, rfl, merge_sortRef_refines⟩ ?_
  exact List.Forall₂.cons ⟨rfl, rfl, quick_sortRef_refines⟩ List.Forall₂.nil

/-- The loop on the store pushes the records of the loop on values, and leaves every
array object of the store it started from as it was. -/
theorem handleSortLoopRef_spec (now : Nat → Int) (arr : Nat) (xs : List Int)
    (entriesRef : List (String × AlgoRef)) (entries : List (String × Algo))
    (hent : List.Forall₂ EntryRefines entriesRef entries)
    (calls : Nat) (h : Heap) (output : List ResultRecord) (hx : h[arr]? = some xs) :
    ∃ (h2 : Heap) (recs : List ResultRecord),
      handleSortLoopRef now arr entriesRef calls h output = some (h2, recs) ∧
      handleSortLoop now xs entries calls output = some recs ∧ Heap.Preserved h h2 := by
  induction hent generalizing calls h output with
  | nil => exact ⟨h, output, rfl, rfl, Heap.Preserved.refl h⟩
  | @cons e2 e es2 es hhead _ ih =>
    obtain ⟨name2, algo2⟩ := e2
    obtain ⟨name, algo⟩ := e
    obtain ⟨hname, hcomp, href⟩ := hhead
    simp only at hname hcomp href
    subst hname
    obtain ⟨h1, r, out, e1, g1, o1, p1⟩ := href h arr xs hx
    obtain ⟨h2, recs, e2, g2, p2⟩ := ih (calls + 2) h1
      (output ++ [⟨name2, now (calls + 1) - now calls, classifyInputCase xs name2, join out,
        algo.complexity.best, algo.complexity.average, algo.complexity.worst⟩]) (p1.get hx)
    refine ⟨h2, recs, ?_, ?_, p1.trans p2⟩
    · rw [handleSortLoopRef, hx]
      simp only [e1, o1, hcomp]
      exact e2
    · rw [handleSortLoop]
      simp only [g1]
      exact g2

/-- C1: for every finite sequence of integers S, empty and single-element ones included,
`Merge.sort S` is in non-decreasing order and is a permutation of S. -/
theorem C1_merge_sort_sorted_perm (S : List Int) :
    (Merge.sort S).Sorted (· ≤ ·) ∧ (Merge.sort S).Perm S ∧
      Merge.sort [] = [] ∧ ∀ x : Int, Merge.sort [x] = [x] :=
  ⟨merge_sortBy_sorted id S, merge_sortBy_perm id S, by simp [Merge.sort, Merge.sortBy],
    fun x => by simp [Merge.sort, Merge.sortBy]⟩

/-- C2: for every finite sequence of integers S, empty and single-element ones included,
`Quick.sort S` is in non-decreasing order and is a permutation of S; a call on an array
with last element `pivot` sorts the elements strictly less than `pivot` to its left and
all the others to its right. -/
theorem C2_quick_sort_sorted_perm (S : List Int) :
    (Quick.sort S).Sorted (· ≤ ·) ∧ (Quick.sort S).Perm S ∧ Quick.sort [] = [] ∧
      ∀ (init : List Int) (pivot : Int),
        Quick.sort (init ++ [pivot]) =
          Quick.sort (init.filter (fun x => decide (x < pivot))) ++
            pivot :: Quick.sort (init.filter (fun x => !decide (x < pivot))) :=
  ⟨quick_sortBy_sorted id S, quick_sortBy_perm id S, by simp [Quick.sort, Quick.sortBy],
    fun init pivot => quick_sortBy_concat id init pivot⟩

/-- C3: for every finite sequence of integers S, empty and single-element ones included,
`Bubble.sort S` returns an array in non-decreasing order that is a permutation of S. -/
theorem C3_bubble_sort_sorted_perm (S : List Int) :
    (∃ out, Bubble.sort S = some out ∧ out.Sorted (· ≤ ·) ∧ out.Perm S) ∧
      Bubble.sort [] = some [] ∧ ∀ x : Int, Bubble.sort [x] = some [x] := by
  refine ⟨bubble_sortBy_spec id S, ?_, fun x => ?_⟩
  · obtain ⟨out, h, -, hp⟩ := bubble_sortBy_spec id ([] : List Int)
    rw [Bubble.sort, h, List.perm_nil.1 hp]
  · obtain ⟨out, h, -, hp⟩ := bubble_sortBy_spec id [x]
    rw [Bubble.sort, h, List.perm_singleton.1 hp]

/-- C4: for every finite sequence of integers S, empty and single-element ones included,
`Insertion.sort S` returns an array in non-decreasing order that is a permutation of S. -/
theorem C4_insertion_sort_sorted_perm (S : List Int) :
    (∃ out, Insertion.sort S = some out ∧ out.Sorted (· ≤ ·) ∧ out.Perm S) ∧
      Insertion.sort [] = some [] ∧ ∀ x : Int, Insertion.sort [x] = some [x] := by
  refine ⟨insertion_sortBy_spec id S, ?_, fun x => ?_⟩
  · obtain ⟨out, h, -, hp⟩ := insertion_sortBy_spec id ([] : List Int)
    rw [Insertion.sort, h, List.perm_nil.1 hp]
  · obtain ⟨out, h, -, hp⟩ := insertion_sortBy_spec id [x]
    rw [Insertion.sort, h, List.perm_singleton.1 hp]

/-- C5: for every finite sequence of integers S, empty and single-element ones included,
`Selection.sort S` returns an array in non-decreasing order that is a permutation of S. -/
theorem C5_selection_sort_sorted_perm (S : List Int) :
    (∃ out, Selection.sort S = some out ∧ out.Sorted (· ≤ ·) ∧ out.Perm S) ∧
      Selection.sort [] = some [] ∧ ∀ x : Int, Selection.sort [x] = some [x] := by
  refine ⟨selection_sortBy_spec id S, ?_, fun x => ?_⟩
  · obtain ⟨out, h, -, hp⟩ := selection_sortBy_spec id ([] : List Int)
    rw [Selection.sort, h, List.perm_nil.1 hp]
  · obtain ⟨out, h, -, hp⟩ := selection_sortBy_spec id [x]
    rw [Selection.sort, h, List.perm_singleton.1 hp]

/-- C6, as stated, fails: `merge` takes the head of `right` when the two heads have equal
keys, and `Merge.sort` swaps the two tagged pairs `(1, 0)`, `(1, 1)` of equal value. -/
theorem C6_merge_sort_not_stable :
    mergeBy Prod.fst [((1 : Int), (0 : Nat))] [(1, 1)] = [(1, 1), (1, 0)] ∧
      Merge.sortBy Prod.fst [((1 : Int), (0 : Nat)), (1, 1)] = [(1, 1), (1, 0)] ∧
      ¬ Stable Prod.fst (Merge.sortBy (Prod.fst : Int × Nat → Int)) := by
  have hm : mergeBy Prod.fst [((1 : Int), (0 : Nat))] [(1, 1)] = [(1, 1), (1, 0)] := by
    simp [mergeBy, mergeLoop]
  have hs : Merge.sortBy Prod.fst [((1 : Int), (0 : Nat)), (1, 1)] = [(1, 1), (1, 0)] := by
    simp [Merge.sortBy, mergeBy, mergeLoop]
  refine ⟨hm, hs, ?_⟩
  intro hst
  have := hst [((1 : Int), (0 : Nat)), (1, 1)] 1
  rw [hs] at this
  simp at this

/-- C6, amended: `merge` takes the head of `left` only when its key is strictly smaller
and the head of `right` otherwise (so also when the two keys are equal); the output of
`Merge.sort` is ordered by key, is a permutation of the input, and the elements with
equal keys appear in it in the reverse of their relative input order. -/
theorem C6_merge_sort_reverses_equal_keys (key : α → Int) (S : List α) :
    (∀ (l r : α) (ls rs : List α),
        mergeBy key (l :: ls) (r :: rs) =
          if key l < key r then l :: mergeBy key ls (r :: rs)
          else r :: mergeBy key (l :: ls) rs) ∧
      (Merge.sortBy key S).Pairwise (fun x y => key x ≤ key y) ∧
      (Merge.sortBy key S).Perm S ∧
      ∀ k : Int, (Merge.sortBy key S).filter (fun x => decide (key x = k)) =
        (S.filter (fun x => decide (key x = k))).reverse :=
  ⟨fun l r ls rs => mergeBy_cons_cons key l r ls rs, merge_sortBy_sorted key S,
    merge_sortBy_perm key S, fun k => merge_sortBy_filter_key key k S⟩

/-- C7: for every input sequence the loop of `handleSort` produces exactly five records,
named Bubble, Selection, Insertion, Merge, Quick in that order, and the `sorted` field of
every record is the ", "-joined rendering of one non-decreasing permutation of the input;
for the empty input all five `sorted` fields are empty, and for `[5,3,4,1,2]` they are
"1, 2, 3, 4, 5". -/
theorem C7_harness_records (now : Nat → Int) (arr : List Int) :
    (∃ (recs : List ResultRecord) (out : List Int),
        handleSortResults now arr = some recs ∧ recs.length = 5 ∧
        recs.map (fun r => r.name) = ["Bubble", "Selection", "Insertion", "Merge", "Quick"] ∧
        out.Sorted (· ≤ ·) ∧ out.Perm arr ∧ ∀ r ∈ recs, r.sorted = join out) ∧
      (∃ recs : List ResultRecord, handleSortResults now [] = some recs ∧ recs.length = 5 ∧
        ∀ r ∈ recs, r.sorted = "") ∧
      (∃ recs : List ResultRecord, handleSortResults now [5, 3, 4, 1, 2] = some recs ∧
        recs.length = 5 ∧ ∀ r ∈ recs, r.sorted = "1, 2, 3, 4, 5") := by
  refine ⟨⟨_, Merge.sort arr, handleSortResults_eq now arr, rfl, rfl,
    merge_sortBy_sorted id arr, merge_sortBy_perm id arr, ?_⟩,
    ⟨_, handleSortResults_eq now [], rfl, ?_⟩,
    ⟨_, handleSortResults_eq now [5, 3, 4, 1, 2], rfl, ?_⟩⟩
  · intro r hr
    simp only [List.mem_cons, List.mem_singleton, List.not_mem_nil, or_false] at hr
    rcases hr with rfl | rfl | rfl | rfl | rfl <;> rfl
  · have h0 : Merge.sort [] = [] := by simp [Merge.sort, Merge.sortBy]
    intro r hr
    simp only [List.mem_cons, List.mem_singleton, List.not_mem_nil, or_false, h0] at hr
    rcases hr with rfl | rfl | rfl | rfl | rfl <;> rfl
  · have h0 : Merge.sort [5, 3, 4, 1, 2] = [1, 2, 3, 4, 5] := by
      simp [Merge.sort, Merge.sortBy, mergeBy, mergeLoop]
    have h1 : join [1, 2, 3, 4, 5] = "1, 2, 3, 4, 5" := by decide
    intro r hr
    simp only [List.mem_cons, List.mem_singleton, List.not_mem_nil, or_false, h0, h1] at hr
    rcases hr with rfl | rfl | rfl | rfl | rfl <;> rfl

/-- C8: no sort function changes its input.  For each of Bubble, Selection, Insertion,
Merge and Quick, run on any store `h` and any array `arr` of it, the call returns and the
contents of `arr`, and of every other array of `h`, are afterwards what they were before;
`merge` does remove elements from the two arrays it is given; and in the loop of
`handleSort`, after any number `k` of iterations `arr` still has its original contents and
the records pushed are those computed from the original contents. -/
theorem C8_sorts_do_not_mutate_input (h : Heap) (arr : Nat) (xs : List Int)
    (hx : h[arr]? = some xs) :
    (∀ e ∈ sortingAlgorithmsRef, ∃ (h2 : Heap) (r : Nat),
        e.2.sort h arr = some (h2, r) ∧ h2[arr]? = some xs ∧ Heap.Preserved h h2) ∧
      (∀ (now : Nat → Int) (k : Nat), ∃ (h2 : Heap) (recs : List ResultRecord),
        handleSortLoopRef now arr (sortingAlgorithmsRef.take k) 0 h [] = some (h2, recs) ∧
        handleSortLoop now xs (sortingAlgorithms.take k) 0 [] = some recs ∧
        h2[arr]? = some xs) ∧
      (∀ now : Nat → Int, ∃ (h2 : Heap) (recs : List ResultRecord),
        handleSortLoopRef now arr sortingAlgorithmsRef 0 h [] = some (h2, recs) ∧
        handleSortResults now xs = some recs ∧ h2[arr]? = some xs) ∧
      mergeRef [[1, 3], [2]] 0 1 = some ([[3], [], [1, 2, 3]], 2) := by
  refine ⟨?_, ?_, ?_, by decide⟩
  · intro e he
    have key : ∀ (f : Heap → Nat → Option (Heap × Nat)) (g : List Int → Option (List Int)),
        RefinesSort f g → ∃ (h2 : Heap) (r : Nat),
          f h arr = some (h2, r) ∧ h2[arr]? = some xs ∧ Heap.Preserved h h2 := by
      intro f g hfg
      obtain ⟨h2, r, out, e1, -, -, p⟩ := hfg h arr xs hx
      exact ⟨h2, r, e1, p.get hx, p⟩
    simp only [sortingAlgorithmsRef, List.mem_cons, List.mem_singleton, List.not_mem_nil,
      or_false] at he
    rcases he with rfl | rfl | rfl | rfl | rfl
    · exact key _ _ bubble_sortRef_refines
    · exact key _ _ selection_sortRef_refines
    · exact key _ _ insertion_sortRef_refines
    · exact key _ _ merge_sortRef_refines
    · exact key _ _ quick_sortRef_refines
  · intro now k
    obtain ⟨h2, recs, e1, g1, p⟩ := handleSortLoopRef_spec now arr xs _ _
      (List.forall₂_take k sortingAlgorithmsRef_refines) 0 h [] hx
    exact ⟨h2, recs, e1, g1, p.get hx⟩
  · intro now
    obtain ⟨h2, recs, e1, g1, p⟩ := handleSortLoopRef_spec now arr xs _ _
      sortingAlgorithmsRef_refines 0 h [] hx
    exact ⟨h2, recs, e1, g1, p.get hx⟩

/-- C8 at the store holding the one array `[2, 1]`. -/
theorem C8_sorts_do_not_mutate_input_witness :
    ([[2, 1]] : Heap)[0]? = some [2, 1] ∧
      ∀ e ∈ sortingAlgorithmsRef, ∃ (h2 : Heap) (r : Nat),
        e.2.sort [[2, 1]] 0 = some (h2, r) ∧ h2[0]? = some [2, 1] ∧
          Heap.Preserved [[2, 1]] h2 :=
  ⟨rfl, (C8_sorts_do_not_mutate_input [[2, 1]] 0 [2, 1] rfl).1⟩

/-- C9: for `algoName` Bubble or Insertion, `classifyInputCase arr algoName` is "Best" if
`arr` is non-decreasing, otherwise "Worst" if `arr` is non-increasing, otherwise "Average";
arrays of length at most 1 and all-equal arrays are labelled "Best"; `[1,2,3]` is Best,
`[3,2,1]` is Worst and `[2,1,3]` is Average. -/
theorem C9_classify_bubble_insertion (arr : List Int) :
    (∀ algoName ∈ ["Bubble", "Insertion"],
        classifyInputCase arr algoName =
          if arr.Sorted (· ≤ ·) then "Best"
          else if arr.Sorted (· ≥ ·) then "Worst" else "Average") ∧
      (∀ algoName ∈ ["Bubble", "Insertion"],
        (arr.length ≤ 1 → classifyInputCase arr algoName = "Best") ∧
        (∀ (n : Nat) (x : Int), classifyInputCase (List.replicate n x) algoName = "Best") ∧
        classifyInputCase [1, 2, 3] algoName = "Best" ∧
        classifyInputCase [3, 2, 1] algoName = "Worst" ∧
        classifyInputCase [2, 1, 3] algoName = "Average") := by
  have key : ∀ (a : List Int), ∀ algoName ∈ ["Bubble", "Insertion"],
      classifyInputCase a algoName =
        if a.Sorted (· ≤ ·) then "Best"
        else if a.Sorted (· ≥ ·) then "Worst" else "Average" := by
    intro a algoName hn
    have h : algoName = "Bubble" ∨ algoName = "Insertion" := by simpa using hn
    simp only [classifyInputCase, if_pos h, isSorted_iff, isReverseSorted_iff]
  refine ⟨key arr, ?_⟩
  intro algoName hn
  refine ⟨?_, ?_, ?_, ?_, ?_⟩
  · intro hlen
    rw [key arr algoName hn, if_pos (sorted_of_length_le_one _ arr hlen)]
  · intro n x
    rw [key _ algoName hn, if_pos]
    exact List.pairwise_replicate.2 (Or.inr (le_refl x))
  · rw [key _ algoName hn]; decide
  · rw [key _ algoName hn]; decide
  · rw [key _ algoName hn]; decide

/-- C10: `classifyInputCase arr "Quick"` is "Worst" exactly when `arr` is non-decreasing or
non-increasing, which includes every array of length at most 1, and is
"Best/Average (random pivot)" otherwise; `[1,2,3]` is Worst and `[2,3,1]` is
"Best/Average (random pivot)". -/
theorem C10_classify_quick (arr : List Int) :
    (classifyInputCase arr "Quick" =
        if arr.Sorted (· ≤ ·) ∨ arr.Sorted (· ≥ ·) then "Worst"
        else "Best/Average (random pivot)") ∧
      (classifyInputCase arr "Quick" = "Worst" ↔ arr.Sorted (· ≤ ·) ∨ arr.Sorted (· ≥ ·)) ∧
      (arr.length ≤ 1 → classifyInputCase arr "Quick" = "Worst") ∧
      classifyInputCase [1, 2, 3] "Quick" = "Worst" ∧
      classifyInputCase [2, 3, 1] "Quick" = "Best/Average (random pivot)" := by
  have key : ∀ a : List Int, classifyInputCase a "Quick" =
      if a.Sorted (· ≤ ·) ∨ a.Sorted (· ≥ ·) then "Worst"
      else "Best/Average (random pivot)" := by
    intro a
    have h1 : ¬ ("Quick" = "Bubble" ∨ "Quick" = "Insertion") := by decide
    have h2 : ¬ ("Quick" = "Selection" ∨ "Quick" = "Merge") := by decide
    simp only [classifyInputCase, if_neg h1, if_neg h2, if_true, Bool.or_eq_true,
      isSorted_iff, isReverseSorted_iff]
  refine ⟨key arr, ?_, ?_, by decide, by decide⟩
  · rw [key arr]
    by_cases h : arr.Sorted (· ≤ ·) ∨ arr.Sorted (· ≥ ·)
    · simp [h]
    · rw [if_neg h]
      simp only [h, iff_false]
      decide
  · intro hlen
    rw [key arr, if_pos (Or.inl (sorted_of_length_le_one _ arr hlen))]

/-- C11: `classifyInputCase` returns a label for every sequence and every name: for
Selection and Merge it is "Average (fixed time)" whatever the sequence, and for every name
that is not one of the five registered names it is "Unknown". -/
theorem C11_classify_fixed_and_unknown (arr : List Int) :
    classifyInputCase arr "Selection" = "Average (fixed time)" ∧
      classifyInputCase arr "Merge" = "Average (fixed time)" ∧
      (∀ algoName : String,
        algoName ∉ ["Bubble", "Selection", "Insertion", "Merge", "Quick"] →
          classifyInputCase arr algoName = "Unknown") ∧
      (∀ algoName : String, classifyInputCase arr algoName ∈
        ["Best", "Worst", "Average", "Average (fixed time)",
          "Best/Average (random pivot)", "Unknown"]) := by
  refine ⟨?_, ?_, ?_, ?_⟩
  · have h1 : ¬ ("Selection" = "Bubble" ∨ "Selection" = "Insertion") := by decide
    simp only [classifyInputCase, if_neg h1, true_or, if_true]
  · have h1 : ¬ ("Merge" = "Bubble" ∨ "Merge" = "Insertion") := by decide
    simp only [classifyInputCase, if_neg h1, or_true, if_true]
  · intro algoName hn
    simp only [List.mem_cons, List.mem_singleton, List.not_mem_nil, or_false, not_or] at hn
    obtain ⟨h1, h2, h3, h4, h5⟩ := hn
    simp only [classifyInputCase, h1, h2, h3, h4, h5, or_self, if_false]
  · intro algoName
    unfold classifyInputCase
    split_ifs <;> simp

/-- C16: for every finite sequence of integers S, `Quick.sort S` and `Merge.sort S` are
each equal, element for element, to what `Bubble.sort S` returns. -/
theorem C16_quick_merge_agree_with_bubble (S : List Int) :
    Bubble.sort S = some (Quick.sort S) ∧ Bubble.sort S = some (Merge.sort S) :=
  ⟨by rw [quick_sort_eq]; exact bubble_sort_eq S, bubble_sort_eq S⟩

/-! ## Theorems: order of equal keys under `Bubble.sort` and `Insertion.sort` -/

/-- One pass of `Bubble.sort` is the outer loop's step. -/
theorem bubble_outer_step (key : α → Int) (x : α) (r s : List α) :
    Bubble.outer key s.length (x :: r ++ s) =
      Bubble.outer key (s.length + 1) (bubbleGo key x r ++ s) := by
  have hinner : Bubble.inner key s.length 0 (x :: r ++ s) = some (bubbleGo key x r ++ s) := by
    have := bubble_inner_eq key r x [] s
    simpa using this
  rw [Bubble.outer, if_pos (by simp; omega)]
  split
  · rename_i a' heq
    rw [hinner] at heq
    cases heq
    rfl
  · rename_i heq
    rw [hinner] at heq
    cases heq

/-- A pass exchanges two neighbours only when the first has the strictly greater key, so
it keeps the elements of each key in their order. -/
theorem bubbleGo_filter_key (key : α → Int) (k : Int) (r : List α) (x : α) :
    (bubbleGo key x r).filter (fun z => decide (key z = k)) =
      (x :: r).filter (fun z => decide (key z = k)) := by
  induction r generalizing x with
  | nil => rfl
  | cons y r ih =>
    by_cases hgt : key x > key y
    · simp only [bubbleGo, if_pos hgt, List.filter_cons, ih x]
      by_cases hx : key x = k
      · have hy : ¬ key y = k := by omega
        simp [hx, hy]
      · simp [hx]
    · simp only [bubbleGo, if_neg hgt]
      rw [List.filter_cons, ih y]
      simp only [List.filter_cons]

/-- The outer loop of `Bubble.sort` returns, and keeps the elements of each key in their
order. -/
theorem bubble_outer_filter_key (key : α → Int) (k : Int) (p s : List α) :
    ∃ out, Bubble.outer key s.length (p ++ s) = some out ∧
      out.filter (fun z => decide (key z = k)) =
        (p ++ s).filter (fun z => decide (key z = k)) := by
  generalize hn : p.length = n
  induction n generalizing p s with
  | zero =>
    have : p = [] := List.length_eq_zero.1 hn
    subst this
    refine ⟨s, ?_, rfl⟩
    rw [Bubble.outer, if_neg (by simp)]
    simp
  | succ n ih =>
    match p, hn with
    | x :: r, hn =>
      obtain ⟨q, mx, he, hp, -⟩ := bubbleGo_spec key r x
      have hqlen : q.length = n := by
        have := hp.length_eq
        simp at this hn
        omega
      obtain ⟨out, ho, hf⟩ := ih q (mx :: s) hqlen
      refine ⟨out, ?_, ?_⟩
      · rw [bubble_outer_step, he]
        simpa using ho
      · rw [hf]
        have h1 : q ++ mx :: s = (q ++ [mx]) ++ s := by simp
        rw [h1, List.filter_append, ← he, bubbleGo_filter_key, ← List.filter_append]

/-- One insertion of `Insertion.sort` is the outer loop's step: the element `k` goes
before the elements `shifted` at the end of the sorted prefix, all of key above its own. -/
theorem insertion_outer_step (key : α → Int) (k : α) (p rest : List α) :
    ∃ (kept shifted : List α), p = kept ++ shifted ∧ (∀ z ∈ shifted, key k < key z) ∧
      Insertion.outer key p.length (p ++ k :: rest) =
        Insertion.outer key (p.length + 1) (kept ++ k :: shifted ++ rest) := by
  obtain ⟨kept, shifted, d, hf, hsh, -, he⟩ := insertion_inner_spec key k p k rest
  refine ⟨kept, shifted, hf, hsh, ?_⟩
  rw [Insertion.outer, if_pos (by simp), getElem?_prefix_length]
  simp only []
  split
  · rename_i a1 j heq
    rw [he] at heq
    simp only [Option.some.injEq, Prod.mk.injEq] at heq
    obtain ⟨rfl, rfl⟩ := heq
    have h1 : ((kept.length : Int) - 1 + 1).toNat = kept.length := by omega
    rw [h1, if_pos ⟨by omega, by simp⟩, set_prefix_length]
    simp
  · rename_i heq
    rw [he] at heq
    cases heq

/-- The outer loop of `Insertion.sort` returns, and keeps the elements of each key in
their order. -/
theorem insertion_outer_filter_key (key : α → Int) (k : Int) (p rest : List α) :
    ∃ out, Insertion.outer key p.length (p ++ rest) = some out ∧
      out.filter (fun z => decide (key z = k)) =
        (p ++ rest).filter (fun z => decide (key z = k)) := by
  induction rest generalizing p with
  | nil =>
    refine ⟨p, ?_, by simp⟩
    rw [Insertion.outer, if_neg (by simp)]
    simp
  | cons x rest ih =>
    obtain ⟨kept, shifted, hf, hsh, hstep⟩ := insertion_outer_step key x p rest
    have hlen : (kept ++ x :: shifted).length = p.length + 1 := by
      rw [hf]; simp; omega
    obtain ⟨out, ho, hfo⟩ := ih (kept ++ x :: shifted)
    refine ⟨out, ?_, ?_⟩
    · rw [hstep, ← hlen]
      simpa using ho
    · rw [hfo, hf]
      simp only [List.filter_append, List.filter_cons, List.append_assoc]
      by_cases hx : key x = k
      · have hnone : shifted.filter (fun z => decide (key z = k)) = [] := by
          rw [List.filter_eq_nil_iff]
          intro z hz
          have := hsh z hz
          simp; omega
        simp [hx, hnone]
      · simp [hx]

/-- C20: Bubble sort and Insertion sort are stable: for every sequence of elements
compared by a key, `Bubble.sort` and `Insertion.sort` return, and the elements of each
key appear in the output in the same relative order as in the input. -/
theorem C20_bubble_insertion_stable (key : α → Int) (S : List α) :
    (∃ out, Bubble.sortBy key S = some out ∧
        ∀ k : Int, out.filter (fun z => decide (key z = k)) =
          S.filter (fun z => decide (key z = k))) ∧
      (∃ out, Insertion.sortBy key S = some out ∧
        ∀ k : Int, out.filter (fun z => decide (key z = k)) =
          S.filter (fun z => decide (key z = k))) := by
  constructor
  · obtain ⟨out, ho, -⟩ := bubble_outer_filter_key key 0 S []
    refine ⟨out, by simpa [Bubble.sortBy] using ho, fun k => ?_⟩
    obtain ⟨out2, ho2, hf2⟩ := bubble_outer_filter_key key k S []
    rw [ho] at ho2
    cases ho2
    simpa using hf2
  · cases S with
    | nil =>
      refine ⟨[], ?_, fun k => rfl⟩
      rw [Insertion.sortBy, Insertion.outer, if_neg (by simp)]
    | cons x t =>
      obtain ⟨out, ho, -⟩ := insertion_outer_filter_key key 0 [x] t
      refine ⟨out, by simpa [Insertion.sortBy] using ho, fun k => ?_⟩
      obtain ⟨out2, ho2, hf2⟩ := insertion_outer_filter_key key k [x] t
      rw [ho] at ho2
      cases ho2
      simpa using hf2

/-! ## Theorems: the comparisons of `Selection.sort` -/

/-- The counting inner loop finds what the inner loop finds, after one comparison for
each index from `j` to the end of the array. -/
theorem selection_innerCount_eq (key : α → Int) (a : List α) (j minIdx count : Nat) :
    Selection.innerCount key a j minIdx count =
      (Selection.inner key a j minIdx).map (fun m => (m, count + (a.length - j))) := by
  generalize hn : a.length - j = n
  induction n using Nat.strong_induction_on generalizing j minIdx count with
  | _ n ih =>
    rw [Selection.innerCount, Selection.inner]
    by_cases hj : j < a.length
    · rw [if_pos hj, if_pos hj]
      cases a[j]? with
      | none => rfl
      | some x =>
        cases a[minIdx]? with
        | none => rfl
        | some m =>
          simp only []
          have hc : count + 1 + (a.length - (j + 1)) = count + n := by omega
          by_cases hlt : key x < key m
          · rw [if_pos hlt, if_pos hlt, ih _ (by omega) _ _ _ rfl, hc]
          · rw [if_neg hlt, if_neg hlt, ih _ (by omega) _ _ _ rfl, hc]
    · rw [if_neg hj, if_neg hj]
      simp
      omega

theorem triangle_step (m : Nat) : (m + 1) * m / 2 = m + m * (m - 1) / 2 := by
  cases m with
  | zero => rfl
  | succ k =>
    have h : (k + 1 + 1) * (k + 1) = 2 * (k + 1) + (k + 1) * k := by ring
    rw [h, Nat.mul_add_div (by decide)]
    simp

/-- The counting outer loop returns what the outer loop returns, after
`(n - i) * (n - i - 1) / 2` comparisons for an array of length `n`. -/
theorem selection_outerCount_eq (key : α → Int) (i : Nat) (a : List α) (count : Nat) :
    Selection.outerCount key i a count =
      (Selection.outer key i a).map
        (fun out => (out, count + (a.length - i) * (a.length - i - 1) / 2)) := by
  generalize hn : a.length - i = n
  induction n generalizing i a count with
  | zero =>
    rw [Selection.outerCount, Selection.outer, if_neg (by omega), if_neg (by omega)]
    simp
  | succ n ih =>
    rw [Selection.outerCount, Selection.outer, if_pos (by omega), if_pos (by omega),
      selection_innerCount_eq]
    cases hin : Selection.inner key a (i + 1) i with
    | none => rfl
    | some minIdx =>
      simp only [Option.map_some']
      cases a[minIdx]? with
      | none => rfl
      | some m =>
        cases a[i]? with
        | none => rfl
        | some x =>
          simp only []
          rw [ih (i + 1) _ _ (by simp; omega)]
          congr 1
          funext out
          congr 1
          have h2 : a.length - i = n + 1 := hn
          have := triangle_step n
          simp only [Nat.add_sub_cancel]
          rw [this]
          omega

theorem selection_sortCount_eq (key : α → Int) (arr : List α) :
    Selection.sortCount key arr =
      (Selection.sortBy key arr).map
        (fun out => (out, arr.length * (arr.length - 1) / 2)) := by
  rw [Selection.sortCount, selection_outerCount_eq, Selection.sortBy]
  simp

/-- C19: the comparison count of Selection sort does not depend on the input: for every
sequence of length n, `Selection.sort` returns after exactly n(n-1)/2 evaluations of the
comparison `a[j] < a[minIdx]`, so two inputs of the same length cost the same number of
comparisons. -/
theorem C19_selection_comparison_count (S : List Int) :
    (∃ out, Selection.sortCount id S = some (out, S.length * (S.length - 1) / 2) ∧
        Selection.sort S = some out) ∧
      ∀ T : List Int, T.length = S.length →
        (Selection.sortCount id T).map Prod.snd = (Selection.sortCount id S).map Prod.snd := by
  have key : ∀ U : List Int, ∃ out,
      Selection.sortCount id U = some (out, U.length * (U.length - 1) / 2) ∧
        Selection.sort U = some out := by
    intro U
    obtain ⟨out, h, -, -⟩ := selection_sortBy_spec id U
    exact ⟨out, by rw [selection_sortCount_eq, h]; rfl, h⟩
  refine ⟨key S, fun T hT => ?_⟩
  obtain ⟨o1, h1, -⟩ := key S
  obtain ⟨o2, h2, -⟩ := key T
  rw [h1, h2, hT]
  rfl

/-! ## Theorems: the recursive calls of `Merge.sort` and `Quick.sort` -/

/-- `Merge.sort` recurses on `Merge.calls` and nowhere else. -/
theorem merge_sortBy_calls (key : α → Int) (arr : List α) :
    (Merge.calls arr = [] ∧ Merge.sortBy key arr = arr) ∨
      ∃ l r, Merge.calls arr = [l, r] ∧
        Merge.sortBy key arr = mergeBy key (Merge.sortBy key l) (Merge.sortBy key r) := by
  rw [Merge.sortBy, Merge.calls]
  split
  · exact Or.inl ⟨rfl, rfl⟩
  · exact Or.inr ⟨_, _, rfl, rfl⟩

theorem merge_calls_shorter (arr sub : List α) (h : sub ∈ Merge.calls arr) :
    sub.length < arr.length := by
  unfold Merge.calls at h
  split at h
  · simp at h
  · simp only [List.mem_cons, List.mem_singleton, List.not_mem_nil, or_false] at h
    rcases h with rfl | rfl
    · simp; omega
    · simp; omega

/-- `Quick.sort` recurses on `Quick.calls` and nowhere else. -/
theorem quick_sortBy_calls (key : α → Int) (arr : List α) :
    (Quick.calls key arr = [] ∧ Quick.sortBy key arr = arr) ∨
      ∃ l r pivot, Quick.calls key arr = [l, r] ∧ arr.getLast? = some pivot ∧
        Quick.sortBy key arr = Quick.sortBy key l ++ pivot :: Quick.sortBy key r := by
  rw [Quick.sortBy, Quick.calls]
  split
  · exact Or.inl ⟨rfl, rfl⟩
  · rename_i hlen
    have hl : arr.getLast? = some arr[arr.length - 1] := by
      rw [List.getLast?_eq_getElem?, List.getElem?_eq_getElem]
    exact Or.inr ⟨_, _, _, rfl, hl, rfl⟩

theorem quick_calls_shorter (key : α → Int) (arr sub : List α)
    (h : sub ∈ Quick.calls key arr) : sub.length < arr.length := by
  unfold Quick.calls at h
  split at h
  · simp at h
  · have hp := quick_partition_length key arr arr[arr.length - 1] 0 [] [] (by omega)
    simp only [List.length_nil, Nat.zero_add, Nat.sub_zero] at hp
    simp only [List.mem_cons, List.mem_singleton, List.not_mem_nil, or_false] at h
    rcases h with rfl | rfl <;> omega

/-- The recursive calls of `Quick.sort` on an array with last element `pivot`. -/
theorem quick_calls_concat (key : α → Int) (init : List α) (pivot : α) :
    Quick.calls key (init ++ [pivot]) =
      if init.isEmpty then []
      else [init.filter (fun x => decide (key x < key pivot)),
        init.filter (fun x => !decide (key x < key pivot))] := by
  rw [Quick.calls]
  cases init with
  | nil => simp
  | cons a as =>
    have hlen : ¬ ((a :: as) ++ [pivot]).length ≤ 1 := by simp
    rw [dif_neg hlen]
    have hp := quick_partition_eq key pivot [] (a :: as) pivot [] []
    simp only [List.nil_append, List.length_nil, List.cons_append] at hp
    simp [hp]

/-- An iteration of the loop of `merge` removes one element from `left` or from `right`
and leaves the other array as it is. -/
theorem mergeStep_shrinks (key : α → Int) (left right result l2 r2 res2 : List α)
    (h : mergeStep key (left, right, result) = some (l2, r2, res2)) :
    (l2.length + 1 = left.length ∧ r2 = right) ∨
      (r2.length + 1 = right.length ∧ l2 = left) := by
  match left, right with
  | [], _ => simp [mergeStep] at h
  | _ :: _, [] => simp [mergeStep] at h
  | l :: ls, r :: rs =>
    simp only [mergeStep] at h
    split at h
    · simp only [Option.some.injEq, Prod.mk.injEq] at h
      obtain ⟨rfl, rfl, -⟩ := h
      exact Or.inl ⟨rfl, rfl⟩
    · simp only [Option.some.injEq, Prod.mk.injEq] at h
      obtain ⟨rfl, rfl, -⟩ := h
      exact Or.inr ⟨rfl, rfl⟩

/-- The loop of `merge` is the iteration of `mergeStep`. -/
theorem mergeLoop_step (key : α → Int) (left right result : List α) :
    (mergeStep key (left, right, result) = none ∧
        mergeLoop key left right result = result ++ left ++ right) ∨
      ∃ l2 r2 res2, mergeStep key (left, right, result) = some (l2, r2, res2) ∧
        mergeLoop key left right result = mergeLoop key l2 r2 res2 := by
  match left, right with
  | [], right => exact Or.inl ⟨rfl, by simp [mergeLoop_nil_left]⟩
  | l :: ls, [] => exact Or.inl ⟨rfl, by simp [mergeLoop_nil_right]⟩
  | l :: ls, r :: rs =>
    right
    rw [mergeLoop_cons_cons]
    simp only [mergeStep]
    split
    · exact ⟨_, _, _, rfl, rfl⟩
    · exact ⟨_, _, _, rfl, rfl⟩

/-- The argument of a recursive call of `Quick.sort` keeps elements of the caller's array,
in their order. -/
theorem quick_calls_sublist (key : α → Int) (arr sub : List α)
    (h : sub ∈ Quick.calls key arr) : sub.Sublist arr := by
  rcases List.eq_nil_or_concat arr with rfl | ⟨init, pivot, rfl⟩
  · simp [Quick.calls] at h
  · rw [List.concat_eq_append, quick_calls_concat] at h
    rw [List.concat_eq_append]
    split at h
    · simp at h
    · simp only [List.mem_cons, List.mem_singleton, List.not_mem_nil, or_false] at h
      rcases h with rfl | rfl
      · exact (List.filter_sublist _).trans (List.sublist_append_left init [pivot])
      · exact (List.filter_sublist _).trans (List.sublist_append_left init [pivot])

/-- Every call that `Quick.sort` on an ordered array leads to is on an ordered array. -/
theorem quick_reaches_ordered (S arr : List Int)
    (hS : S.Sorted (· ≤ ·) ∨ S.Sorted (· ≥ ·)) (hr : Quick.Reaches id S arr) :
    arr.Sorted (· ≤ ·) ∨ arr.Sorted (· ≥ ·) := by
  induction hr with
  | root => exact hS
  | call _ hsub ih =>
    have hsl := quick_calls_sublist id _ _ hsub
    rcases ih with h | h
    · exact Or.inl (List.Pairwise.sublist hsl h)
    · exact Or.inr (List.Pairwise.sublist hsl h)

/-- C17: all five sort functions return on every finite sequence, the empty and the
single-element ones included: the loops of Bubble, Selection and Insertion never index
outside the array, every recursive call of `Merge.sort` and of `Quick.sort` is on a
strictly shorter array, and every iteration of the loop of `merge` removes one element
from `left` or from `right`. -/
theorem C17_sorts_terminate (S : List Int) :
    ((∃ out, Bubble.sort S = some out) ∧ (∃ out, Selection.sort S = some out) ∧
        (∃ out, Insertion.sort S = some out) ∧
        (∃ (h2 : Heap) (r : Nat), Merge.sortRef [S] 0 = some (h2, r)) ∧
        (∃ (h2 : Heap) (r : Nat), Quick.sortRef [S] 0 = some (h2, r))) ∧
      ((∀ sub ∈ Merge.calls S, sub.length < S.length) ∧
        ((Merge.calls S = [] ∧ Merge.sort S = S) ∨
          ∃ l r, Merge.calls S = [l, r] ∧
            Merge.sort S = merge (Merge.sort l) (Merge.sort r))) ∧
      ((∀ sub ∈ Quick.calls id S, sub.length < S.length) ∧
        ((Quick.calls id S = [] ∧ Quick.sort S = S) ∨
          ∃ l r pivot, Quick.calls id S = [l, r] ∧ S.getLast? = some pivot ∧
            Quick.sort S = Quick.sort l ++ pivot :: Quick.sort r)) ∧
      ((∀ left right result l2 r2 res2 : List Int,
          mergeStep id (left, right, result) = some (l2, r2, res2) →
            (l2.length + 1 = left.length ∧ r2 = right) ∨
              (r2.length + 1 = right.length ∧ l2 = left)) ∧
        ∀ left right result : List Int,
          (mergeStep id (left, right, result) = none ∧
              mergeLoop id left right result = result ++ left ++ right) ∨
            ∃ l2 r2 res2, mergeStep id (left, right, result) = some (l2, r2, res2) ∧
              mergeLoop id left right result = mergeLoop id l2 r2 res2) := by
  refine ⟨⟨?_, ?_, ?_, ?_, ?_⟩, ⟨?_, ?_⟩, ⟨?_, ?_⟩, ⟨?_, ?_⟩⟩
  · obtain ⟨out, h, -, -⟩ := bubble_sortBy_spec id S
    exact ⟨out, h⟩
  · obtain ⟨out, h, -, -⟩ := selection_sortBy_spec id S
    exact ⟨out, h⟩
  · obtain ⟨out, h, -, -⟩ := insertion_sortBy_spec id S
    exact ⟨out, h⟩
  · obtain ⟨h2, r, -, e, -, -, -⟩ := merge_sortRef_refines [S] 0 S rfl
    exact ⟨h2, r, e⟩
  · obtain ⟨h2, r, -, e, -, -, -⟩ := quick_sortRef_refines [S] 0 S rfl
    exact ⟨h2, r, e⟩
  · exact fun sub h => merge_calls_shorter S sub h
  · exact merge_sortBy_calls id S
  · exact fun sub h => quick_calls_shorter id S sub h
  · exact quick_sortBy_calls id S
  · exact fun left right result l2 r2 res2 h =>
      mergeStep_shrinks id left right result l2 r2 res2 h
  · exact fun left right result => mergeLoop_step id left right result

/-- C18: on an ordered input the pivot of Quick sort is always an extremum: for every
sequence S that is non-decreasing or non-increasing, at every call of `Quick.sort` that
the call on S leads to, on an array of length at least 2, the pivot (the last element) is
a maximum or a minimum of that array. -/
theorem C18_quick_pivot_extremum (S arr : List Int)
    (hS : S.Sorted (· ≤ ·) ∨ S.Sorted (· ≥ ·)) (hr : Quick.Reaches id S arr)
    (hlen : 2 ≤ arr.length) :
    ∃ pivot, arr.getLast? = some pivot ∧
      ((∀ x ∈ arr, x ≤ pivot) ∨ (∀ x ∈ arr, pivot ≤ x)) := by
  have hord := quick_reaches_ordered S arr hS hr
  rcases List.eq_nil_or_concat arr with rfl | ⟨init, pivot, rfl⟩
  · simp at hlen
  · rw [List.concat_eq_append] at hord ⊢
    refine ⟨pivot, by simp, ?_⟩
    rcases hord with h | h
    · left
      intro x hx
      rcases List.mem_append.1 hx with hx | hx
      · exact (List.pairwise_append.1 h).2.2 x hx pivot (by simp)
      · simp at hx; subst hx; exact le_refl _
    · right
      intro x hx
      rcases List.mem_append.1 hx with hx | hx
      · exact (List.pairwise_append.1 h).2.2 x hx pivot (by simp)
      · simp at hx; subst hx; exact le_refl _

/-- C18 at the call on `[1, 2]` that `Quick.sort([1, 2, 3])` makes. -/
theorem C18_quick_pivot_extremum_witness :
    (([1, 2, 3] : List Int).Sorted (· ≤ ·) ∨ ([1, 2, 3] : List Int).Sorted (· ≥ ·)) ∧
      Quick.Reaches id [1, 2, 3] [1, 2] ∧ 2 ≤ ([1, 2] : List Int).length ∧
      ∃ pivot, ([1, 2] : List Int).getLast? = some pivot ∧
        ((∀ x ∈ ([1, 2] : List Int), x ≤ pivot) ∨ (∀ x ∈ ([1, 2] : List Int), pivot ≤ x)) :=
  have hS : ([1, 2, 3] : List Int).Sorted (· ≤ ·) ∨ ([1, 2, 3] : List Int).Sorted (· ≥ ·) :=
    Or.inl (by decide)
  have hr : Quick.Reaches id [1, 2, 3] [1, 2] :=
    Quick.Reaches.call Quick.Reaches.root (by
      have h := quick_calls_concat id [1, 2] (3 : Int)
      simp only [List.cons_append, List.nil_append] at h
      rw [h]
      decide)
  ⟨hS, hr, by decide, C18_quick_pivot_extremum [1, 2, 3] [1, 2] hS hr (by decide)⟩

/-! ## Theorems: decimal renderings -/

/-- The characters of `toString z`. -/
theorem toString_int_data (z : Int) :
    (toString z).data =
      match z with
      | Int.ofNat m => Nat.toDigits 10 m
      | Int.negSucc m => '-' :: Nat.toDigits 10 (m + 1) := by
  cases z <;> rfl

theorem digitChar_facts (d : Nat) (h : d < 10) :
    radixDigit 10 (Nat.digitChar d) = some d ∧ isWhiteSpace (Nat.digitChar d) = false ∧
      Nat.digitChar d ≠ ',' ∧ Nat.digitChar d ≠ '-' ∧ Nat.digitChar d ≠ '+' ∧
      Nat.digitChar d ≠ 'x' ∧ Nat.digitChar d ≠ 'X' := by
  interval_cases d <;> decide

theorem toDigitsCore_decimal (fuel n : Nat) (ds : List Char)
    (hds : ∀ c ∈ ds, IsDecimal c) : ∀ c ∈ Nat.toDigitsCore 10 fuel n ds, IsDecimal c := by
  induction fuel generalizing n ds with
  | zero => simpa [Nat.toDigitsCore] using hds
  | succ fuel ih =>
    have hd : IsDecimal (Nat.digitChar (n % 10)) := ⟨n % 10, Nat.mod_lt _ (by decide), rfl⟩
    have hds2 : ∀ c ∈ Nat.digitChar (n % 10) :: ds, IsDecimal c := by
      intro c hc
      rcases List.mem_cons.1 hc with rfl | hc
      · exact hd
      · exact hds c hc
    simp only [Nat.toDigitsCore]
    split
    · exact hds2
    · exact ih _ _ hds2

theorem toDigitsCore_ne_nil (fuel n : Nat) (ds : List Char) (hf : 0 < fuel) :
    Nat.toDigitsCore 10 fuel n ds ≠ [] := by
  induction fuel generalizing n ds with
  | zero => omega
  | succ fuel ih =>
    simp only [Nat.toDigitsCore]
    split
    · simp
    · rename_i hne
      cases fuel with
      | zero => simp [Nat.toDigitsCore]
      | succ f => exact ih _ _ (by omega)

theorem toDigitsCore_value (fuel n : Nat) (ds : List Char) (hf : n < fuel) :
    (Nat.toDigitsCore 10 fuel n ds).foldl
        (fun acc c => acc * 10 + (radixDigit 10 c).getD 0) 0 =
      ds.foldl (fun acc c => acc * 10 + (radixDigit 10 c).getD 0) n := by
  induction fuel generalizing n ds with
  | zero => omega
  | succ fuel ih =>
    have hd := (digitChar_facts (n % 10) (Nat.mod_lt _ (by decide))).1
    simp only [Nat.toDigitsCore]
    split
    · rename_i h0
      simp only [List.foldl_cons, hd, Option.getD_some]
      congr 1
      omega
    · rename_i h0
      rw [ih _ _ (by omega)]
      simp only [List.foldl_cons, hd, Option.getD_some]
      congr 1
      omega

theorem toDigits_decimal (n : Nat) : ∀ c ∈ Nat.toDigits 10 n, IsDecimal c :=
  toDigitsCore_decimal _ _ [] (by simp)

theorem toDigits_ne_nil (n : Nat) : Nat.toDigits 10 n ≠ [] :=
  toDigitsCore_ne_nil _ _ [] (by omega)

theorem toDigits_value (n : Nat) : digitsValue 10 (Nat.toDigits 10 n) = n := by
  rw [digitsValue, Nat.toDigits, toDigitsCore_value _ _ _ (by omega)]
  rfl

/-! ## Theorems: `parseInt` on a decimal rendering -/

theorem isDecimal_facts (c : Char) (h : IsDecimal c) :
    (radixDigit 10 c).isSome = true ∧ isWhiteSpace c = false ∧ c ≠ ',' ∧ c ≠ '-' ∧
      c ≠ '+' ∧ c ≠ 'x' ∧ c ≠ 'X' := by
  obtain ⟨d, hd, rfl⟩ := h
  obtain ⟨h1, h2, h3, h4, h5, h6, h7⟩ := digitChar_facts d hd
  exact ⟨by rw [h1]; rfl, h2, h3, h4, h5, h6, h7⟩

/-- There is no sign to read before a decimal digit. -/
theorem stripSign_decimal (c : Char) (t : List Char) (h : IsDecimal c) :
    stripSign (c :: t) = (1, c :: t) := by
  obtain ⟨-, -, -, h4, h5, -, -⟩ := isDecimal_facts c h
  unfold stripSign
  split
  · rename_i heq
    simp only [List.cons.injEq] at heq
    exact absurd heq.1 h4
  · rename_i heq
    simp only [List.cons.injEq] at heq
    exact absurd heq.1 h5
  · rfl

/-- The prefix step keeps radix 10 unless the text goes on with `x` or `X` after a first
character. -/
theorem stripPrefix_ten (S : List Char)
    (h : ∀ c0 c1 t, S = c0 :: c1 :: t → c1 ≠ 'x' ∧ c1 ≠ 'X') : stripPrefix S = (10, S) := by
  unfold stripPrefix
  split
  · rename_i t
    exact absurd rfl (h _ _ t rfl).1
  · rename_i t
    exact absurd rfl (h _ _ t rfl).2
  · rfl

theorem takeWhile_append_stop (p : Char → Bool) (l rest : List Char)
    (hl : ∀ c ∈ l, p c = true) (hrest : ∀ c t, rest = c :: t → p c = false) :
    (l ++ rest).takeWhile p = l := by
  induction l with
  | nil =>
    cases rest with
    | nil => rfl
    | cons c t => simp [List.takeWhile, hrest c t rfl]
  | cons a l ih =>
    rw [List.cons_append, List.takeWhile_cons, if_pos (hl a (List.mem_cons_self _ _)),
      ih (fun c hc => hl c (List.mem_cons_of_mem _ hc))]

/-- `parseInt` on decimal digits followed by something that does not go on with a
decimal digit, nor with `x` or `X`: the value of the digits, when it is at most 2^53. -/
theorem parseInt_digits (ds rest : List Char) (hds : ∀ c ∈ ds, IsDecimal c) (hne : ds ≠ [])
    (hrest : ∀ c t, rest = c :: t → (radixDigit 10 c).isSome = false ∧ c ≠ 'x' ∧ c ≠ 'X') :
    parseInt (ds ++ rest) =
        (if digitsValue 10 ds ≤ 2 ^ 53 then ParsedNumber.integer (digitsValue 10 ds : Int)
          else ParsedNumber.rounded) ∧
      parseInt ('-' :: (ds ++ rest)) =
        (if digitsValue 10 ds ≤ 2 ^ 53 then ParsedNumber.integer (-(digitsValue 10 ds : Int))
          else ParsedNumber.rounded) := by
  obtain ⟨c, t, rfl⟩ := List.exists_cons_of_ne_nil hne
  have hc := isDecimal_facts c (hds c (List.mem_cons_self _ _))
  have htake : (c :: t ++ rest).takeWhile (fun c => (radixDigit 10 c).isSome) = c :: t :=
    takeWhile_append_stop _ (c :: t) rest (fun a ha => (isDecimal_facts a (hds a ha)).1)
      (fun a t1 h => (hrest a t1 h).1)
  rw [List.cons_append] at htake ⊢
  have hdrop : (c :: (t ++ rest)).dropWhile isWhiteSpace = c :: (t ++ rest) := by
    rw [List.dropWhile_cons, if_neg (by simp [hc.2.1])]
  have hpre : stripPrefix (c :: (t ++ rest)) = (10, c :: (t ++ rest)) := by
    apply stripPrefix_ten
    intro c0 c1 t1 heq
    cases t with
    | nil =>
      simp only [List.nil_append, List.cons.injEq] at heq
      obtain ⟨-, h2⟩ := heq
      exact (hrest c1 t1 h2).2
    | cons b t2 =>
      simp only [List.cons_append, List.cons.injEq] at heq
      obtain ⟨-, rfl, -⟩ := heq
      have hb := isDecimal_facts b (hds b (by simp))
      exact ⟨hb.2.2.2.2.2.1, hb.2.2.2.2.2.2⟩
  have hsign1 := stripSign_decimal c (t ++ rest) (hds c (List.mem_cons_self _ _))
  constructor
  · unfold parseInt
    rw [hdrop, hsign1]
    simp only [hpre, htake]
    simp
  · have hminus : isWhiteSpace '-' = false := by decide
    have hdrop2 : ('-' :: c :: (t ++ rest)).dropWhile isWhiteSpace =
        '-' :: c :: (t ++ rest) := by
      rw [List.dropWhile_cons, if_neg (by simp [hminus])]
    have hsign : stripSign ('-' :: c :: (t ++ rest)) = (-1, c :: (t ++ rest)) := rfl
    unfold parseInt
    rw [hdrop2, hsign]
    simp only [hpre, htake]
    simp

/-- `parseInt` reads back the decimal rendering of an integer of magnitude at most 2^53,
whatever follows it, unless that goes on with a decimal digit or with `x` or `X`. -/
theorem parseInt_toString (z : Int) (rest : List Char) (hz : z.natAbs ≤ 2 ^ 53)
    (hrest : ∀ c t, rest = c :: t → (radixDigit 10 c).isSome = false ∧ c ≠ 'x' ∧ c ≠ 'X') :
    parseInt ((toString z).data ++ rest) = ParsedNumber.integer z := by
  rw [toString_int_data]
  cases z with
  | ofNat m =>
    have hm : m ≤ 2 ^ 53 := hz
    simp only []
    rw [(parseInt_digits _ rest (toDigits_decimal m) (toDigits_ne_nil m) hrest).1,
      toDigits_value, if_pos hm]
    rfl
  | negSucc m =>
    have hm : m + 1 ≤ 2 ^ 53 := hz
    simp only [List.cons_append]
    rw [(parseInt_digits _ rest (toDigits_decimal (m + 1)) (toDigits_ne_nil (m + 1)) hrest).2,
      toDigits_value, if_pos hm]
    rfl

/-! ## Theorems: `split`, `trim` and `join` -/

theorem split_ne_nil (sep : Char) (l : List Char) : split sep l ≠ [] := by
  cases l with
  | nil => simp [split]
  | cons c cs =>
    simp only [split]
    split
    · simp
    · split <;> simp

theorem split_cons_of_ne (sep c : Char) (cs : List Char) (h : c ≠ sep) :
    ∃ tok toks, split sep cs = tok :: toks ∧ split sep (c :: cs) = (c :: tok) :: toks := by
  obtain ⟨tok, toks, heq⟩ := List.exists_cons_of_ne_nil (split_ne_nil sep cs)
  refine ⟨tok, toks, heq, ?_⟩
  simp only [split, if_neg h, heq]

/-- A text without the separator is one piece. -/
theorem split_of_not_mem (sep : Char) (tok : List Char) (h : sep ∉ tok) :
    split sep tok = [tok] := by
  induction tok with
  | nil => rfl
  | cons c cs ih =>
    have hc : c ≠ sep := fun e => h (by simp [e])
    obtain ⟨tok, toks, heq, hs⟩ := split_cons_of_ne sep c cs hc
    rw [ih (fun hm => h (List.mem_cons_of_mem _ hm))] at heq
    simp only [List.cons.injEq] at heq
    rw [hs, ← heq.1, ← heq.2]

/-- A text without the separator, then the separator: the first piece. -/
theorem split_append_sep (sep : Char) (tok rest : List Char) (h : sep ∉ tok) :
    split sep (tok ++ sep :: rest) = tok :: split sep rest := by
  induction tok with
  | nil => simp [split]
  | cons c cs ih =>
    have hc : c ≠ sep := fun e => h (by simp [e])
    obtain ⟨tok, toks, heq, hs⟩ := split_cons_of_ne sep c (cs ++ sep :: rest) hc
    rw [ih (fun hm => h (List.mem_cons_of_mem _ hm))] at heq
    simp only [List.cons.injEq] at heq
    rw [List.cons_append, hs, ← heq.1, ← heq.2]

theorem dropWhile_of_none (p : Char → Bool) (l : List Char) (h : ∀ c ∈ l, p c = false) :
    l.dropWhile p = l := by
  cases l with
  | nil => rfl
  | cons c cs => rw [List.dropWhile_cons, if_neg (by simp [h c (List.mem_cons_self _ _)])]

/-- `trim()` leaves a text without white space as it is. -/
theorem trim_of_no_whiteSpace (l : List Char) (h : ∀ c ∈ l, isWhiteSpace c = false) :
    trim l = l := by
  rw [trim, dropWhile_of_none _ l h,
    dropWhile_of_none _ l.reverse (fun c hc => h c (List.mem_reverse.1 hc)),
    List.reverse_reverse]

theorem trim_space_cons (l : List Char) : trim (' ' :: l) = trim l := by
  have hs : isWhiteSpace ' ' = true := by decide
  rw [trim, trim, List.dropWhile_cons, if_pos hs]

/-- The decimal rendering of an integer has no white space and no comma. -/
theorem toString_int_chars (z : Int) :
    ∀ c ∈ (toString z).data, isWhiteSpace c = false ∧ c ≠ ',' := by
  have hdec : ∀ (n : Nat), ∀ c ∈ Nat.toDigits 10 n, isWhiteSpace c = false ∧ c ≠ ',' := by
    intro n c hc
    have := isDecimal_facts c (toDigits_decimal n c hc)
    exact ⟨this.2.1, this.2.2.1⟩
  rw [toString_int_data]
  cases z with
  | ofNat m => exact hdec m
  | negSucc m =>
    intro c hc
    rcases List.mem_cons.1 hc with rfl | hc
    · exact ⟨by decide, by decide⟩
    · exact hdec _ c hc

theorem intercalate_go_data (acc : String) (l : List Int) :
    (String.intercalate.go acc ", " (l.map numberToString)).data = acc.data ++ joinTail l := by
  induction l generalizing acc with
  | nil => simp [String.intercalate.go, joinTail]
  | cons y t ih =>
    simp only [List.map_cons, String.intercalate.go, ih, String.data_append, joinTail]
    simp

/-- The characters of `join`. -/
theorem join_data (xs : List Int) :
    (join xs).data =
      match xs with
      | [] => []
      | x :: t => (numberToString x).data ++ joinTail t := by
  cases xs with
  | nil => rfl
  | cons x t =>
    simp only [join, List.map_cons, String.intercalate]
    exact intercalate_go_data _ t

/-- Below 2^53 in magnitude a number is rendered with its decimal digits. -/
theorem numberToString_of_safe (x : Int) (h : x.natAbs < 2 ^ 53) :
    numberToString x = toString x := by
  rw [numberToString, if_pos h]

/-- The pieces of the rest of a joined text, after a first piece `tok`. -/
theorem split_joinTail (tok : List Char) (t : List Int) (h : ',' ∉ tok)
    (ht : ∀ y ∈ t, y.natAbs < 2 ^ 53) :
    split ',' (tok ++ joinTail t) = tok :: t.map (fun y => ' ' :: (toString y).data) := by
  induction t generalizing tok with
  | nil => simpa [joinTail] using split_of_not_mem ',' tok h
  | cons y t ih =>
    have hy : ',' ∉ ' ' :: (toString y).data := by
      intro hm
      rcases List.mem_cons.1 hm with hm | hm
      · exact absurd hm (by decide)
      · exact (toString_int_chars y _ hm).2 rfl
    rw [joinTail, split_append_sep ',' tok _ h,
      numberToString_of_safe y (ht y (List.mem_cons_self _ _))]
    have := ih (' ' :: (toString y).data) hy (fun z hz => ht z (List.mem_cons_of_mem _ hz))
    simp only [List.cons_append] at this
    rw [this]
    rfl

theorem parseInt_trim_toString (z : Int) (hz : z.natAbs ≤ 2 ^ 53) :
    parseInt (trim (toString z).data) = ParsedNumber.integer z ∧
      parseInt (trim (' ' :: (toString z).data)) = ParsedNumber.integer z := by
  have h1 : trim (toString z).data = (toString z).data :=
    trim_of_no_whiteSpace _ (fun c hc => (toString_int_chars z c hc).1)
  have h2 := parseInt_toString z [] hz (by intro c t h; cases h)
  rw [List.append_nil] at h2
  exact ⟨by rw [h1, h2], by rw [trim_space_cons, h1, h2]⟩

/-- What `keepNumbers` returns: nothing when one of the results is a rounded number,
otherwise the integers among the results, in order. -/
theorem keepNumbers_eq (ps : List ParsedNumber) :
    keepNumbers ps =
      if ParsedNumber.rounded ∈ ps then none else some (ps.filterMap integerValue) := by
  induction ps with
  | nil => rfl
  | cons p ps ih =>
    cases p with
    | notANumber =>
      rw [keepNumbers, ih]
      simp [integerValue]
    | integer z =>
      rw [keepNumbers, ih]
      by_cases h : ParsedNumber.rounded ∈ ps
      · simp [h]
      · simp [h, integerValue]
    | rounded => simp [keepNumbers]

theorem keepNumbers_integers (zs : List Int) :
    keepNumbers (zs.map ParsedNumber.integer) = some zs := by
  induction zs with
  | nil => rfl
  | cons z zs ih => simp only [List.map_cons, keepNumbers, ih]

/-- `parseInput` reads back what `join` renders for integers below 2^53 in magnitude. -/
theorem parseInput_join (xs : List Int) (hxs : ∀ x ∈ xs, x.natAbs < 2 ^ 53) :
    parseInput (join xs) = some xs := by
  rw [parseInput, join_data]
  cases xs with
  | nil => decide
  | cons x t =>
    have hx : x.natAbs < 2 ^ 53 := hxs x (List.mem_cons_self _ _)
    have ht : ∀ y ∈ t, y.natAbs < 2 ^ 53 := fun y hy => hxs y (List.mem_cons_of_mem _ hy)
    simp only []
    rw [numberToString_of_safe x hx,
      split_joinTail _ t (fun hm => (toString_int_chars x _ hm).2 rfl) ht]
    have htail : (t.map (fun y => ' ' :: (toString y).data)).map (fun n => parseInt (trim n)) =
        t.map ParsedNumber.integer := by
      rw [List.map_map]
      apply List.map_congr_left
      intro y hy
      exact (parseInt_trim_toString y (le_of_lt (ht y hy))).2
    rw [List.map_cons, htail, (parseInt_trim_toString x (le_of_lt hx)).1]
    exact keepNumbers_integers (x :: t)

/-! ## Theorems: what `parseInt` keeps and what it discards -/

theorem isDecimal_of_isDecimalDigit (c : Char) (h : isDecimalDigit c = true) :
    IsDecimal c := by
  simp only [isDecimalDigit, decide_eq_true_eq] at h
  refine ⟨c.toNat - 48, by omega, ?_⟩
  have hc : c = Char.ofNat c.toNat := (Char.ofNat_toNat c).symm
  have hd : ∀ d, d < 10 → Nat.digitChar d = Char.ofNat (48 + d) := by
    intro d hd
    interval_cases d <;> rfl
  rw [hd _ (by omega)]
  have h48 : 48 + (c.toNat - 48) = c.toNat := by omega
  rw [h48]
  exact hc

/-- `parseInt` on a sign `+` and decimal digits. -/
theorem parseInt_plus_digits (ds rest : List Char) (hds : ∀ c ∈ ds, IsDecimal c)
    (hne : ds ≠ [])
    (hrest : ∀ c t, rest = c :: t → (radixDigit 10 c).isSome = false ∧ c ≠ 'x' ∧ c ≠ 'X') :
    parseInt ('+' :: (ds ++ rest)) =
      (if digitsValue 10 ds ≤ 2 ^ 53 then ParsedNumber.integer (digitsValue 10 ds : Int)
        else ParsedNumber.rounded) := by
  have h := (parseInt_digits ds rest hds hne hrest).1
  obtain ⟨c, t, rfl⟩ := List.exists_cons_of_ne_nil hne
  have hc := isDecimal_facts c (hds c (List.mem_cons_self _ _))
  have hplus : isWhiteSpace '+' = false := by decide
  unfold parseInt at h ⊢
  rw [List.cons_append] at h ⊢
  have hdrop : (c :: (t ++ rest)).dropWhile isWhiteSpace = c :: (t ++ rest) := by
    rw [List.dropWhile_cons, if_neg (by simp [hc.2.1])]
  have hdrop2 : ('+' :: c :: (t ++ rest)).dropWhile isWhiteSpace =
      '+' :: c :: (t ++ rest) := by
    rw [List.dropWhile_cons, if_neg (by simp [hplus])]
  have hsign : stripSign ('+' :: c :: (t ++ rest)) = (1, c :: (t ++ rest)) := rfl
  rw [hdrop, stripSign_decimal c _ (hds c (List.mem_cons_self _ _))] at h
  rw [hdrop2, hsign]
  exact h

/-- A token that starts with a character that is no white space, no sign and no decimal
digit is not a number for `parseInt`. -/
theorem parseInt_no_digit (c : Char) (t : List Char) (hw : isWhiteSpace c = false)
    (hm : c ≠ '-') (hp : c ≠ '+') (hd : (radixDigit 10 c).isSome = false) :
    parseInt (c :: t) = ParsedNumber.notANumber := by
  have hdrop : (c :: t).dropWhile isWhiteSpace = c :: t := by
    rw [List.dropWhile_cons, if_neg (by simp [hw])]
  have hsign : stripSign (c :: t) = (1, c :: t) := by
    unfold stripSign
    split
    · rename_i heq
      simp only [List.cons.injEq] at heq
      exact absurd heq.1 hm
    · rename_i heq
      simp only [List.cons.injEq] at heq
      exact absurd heq.1 hp
    · rfl
  have hzero : c ≠ '0' := by
    intro h0
    rw [h0] at hd
    exact absurd hd (by decide)
  have hpre : stripPrefix (c :: t) = (10, c :: t) := by
    unfold stripPrefix
    split
    · rename_i heq
      simp only [List.cons.injEq] at heq
      exact absurd heq.1 hzero
    · rename_i heq
      simp only [List.cons.injEq] at heq
      exact absurd heq.1 hzero
    · rfl
  have htake : (c :: t).takeWhile (fun c => (radixDigit 10 c).isSome) = [] := by
    rw [List.takeWhile_cons, if_neg (by simp [hd])]
  unfold parseInt
  rw [hdrop, hsign]
  simp only [hpre, htake]
  rfl

/-- A token that is a valid integer is a number for `parseInt`. -/
theorem parseInt_of_isInteger (tok : List Char) (h : isInteger tok = true) :
    parseInt tok ≠ ParsedNumber.notANumber := by
  have hno : ∀ c t, ([] : List Char) = c :: t →
      (radixDigit 10 c).isSome = false ∧ c ≠ 'x' ∧ c ≠ 'X' := by
    intro c t h
    cases h
  have key : ∀ ds : List Char, (!ds.isEmpty && ds.all isDecimalDigit) = true →
      (∀ c ∈ ds, IsDecimal c) ∧ ds ≠ [] := by
    intro ds hds
    simp only [Bool.and_eq_true, Bool.not_eq_true', List.isEmpty_eq_false, List.all_eq_true] at hds
    exact ⟨fun c hc => isDecimal_of_isDecimalDigit c (hds.2 c hc), by
      intro e; rw [e] at hds; simp at hds⟩
  unfold isInteger at h
  split at h
  · obtain ⟨h1, h2⟩ := key _ h
    have := (parseInt_digits _ [] h1 h2 hno).2
    rw [List.append_nil] at this
    rw [this]
    split <;> simp
  · obtain ⟨h1, h2⟩ := key _ h
    have := parseInt_plus_digits _ [] h1 h2 hno
    rw [List.append_nil] at this
    rw [this]
    split <;> simp
  · obtain ⟨h1, h2⟩ := key _ h
    have := (parseInt_digits _ [] h1 h2 hno).1
    rw [List.append_nil] at this
    rw [this]
    split <;> simp

theorem radixDigit_ten_isSome (c : Char) :
    (radixDigit 10 c).isSome = isDecimalDigit c := by
  unfold radixDigit digitValue isDecimalDigit
  by_cases h1 : 48 ≤ c.toNat ∧ c.toNat ≤ 57
  · have h2 : c.toNat - 48 < 10 := by omega
    simp [h1, h2]
  · by_cases h3 : 97 ≤ c.toNat ∧ c.toNat ≤ 122
    · simp [h1, h3]
    · by_cases h4 : 65 ≤ c.toNat ∧ c.toNat ≤ 90
      · simp [h1, h3, h4]
      · simp [h1, h3, h4]

/-- `generateRandomArray` makes `length` draws, none when `length` is not positive. -/
theorem generateRandomValues_length (random : Nat → ℚ) (length min max : Option Int) :
    (generateRandomValues random length min max).length = (length.getD 10).toNat := by
  simp [generateRandomValues]

/-- One element of the array lies between `min` and `max`. -/
theorem randomInt_mem_range (r : ℚ) (min max : Int) (h : min ≤ max) (h0 : 0 ≤ r)
    (h1 : r < 1) : min ≤ randomInt r min max ∧ randomInt r min max ≤ max := by
  have hn : (0 : ℚ) < ((max - min + 1 : Int) : ℚ) := by
    have : (0 : Int) < max - min + 1 := by omega
    exact_mod_cast this
  have hlo : 0 ≤ ⌊r * ((max - min + 1 : Int) : ℚ)⌋ :=
    Int.floor_nonneg.2 (mul_nonneg h0 (le_of_lt hn))
  have hhi : ⌊r * ((max - min + 1 : Int) : ℚ)⌋ < max - min + 1 := by
    rw [Int.floor_lt]
    calc r * ((max - min + 1 : Int) : ℚ) < 1 * ((max - min + 1 : Int) : ℚ) :=
          mul_lt_mul_of_pos_right h1 hn
      _ = ((max - min + 1 : Int) : ℚ) := one_mul _
  unfold randomInt
  constructor <;> omega

/-- With the draws in `[0, 1)` the elements made for the default range lie between 1 and
1000, so below 2^53. -/
theorem generateRandomValues_default_safe (random : Nat → ℚ)
    (hr : ∀ k, 0 ≤ random k ∧ random k < 1) (length : Option Int) :
    ∀ v ∈ generateRandomValues random length none none, v.natAbs < 2 ^ 53 := by
  intro v hv
  simp only [generateRandomValues, List.mem_map, Option.getD_none] at hv
  obtain ⟨k, -, rfl⟩ := hv
  have h := randomInt_mem_range (random k) 1 1000 (by decide) (hr k).1 (hr k).2
  omega

/-- The text `generateRandomArray` returns for a length below 2^32. -/
theorem generateRandomArray_of_lt (random : Nat → ℚ) (length min max : Option Int)
    (h : length.getD 10 < 2 ^ 32) :
    generateRandomArray random length min max =
      some (join (generateRandomValues random length min max)) := by
  rw [generateRandomArray, if_neg (not_le.2 h)]

/-- From the length 2^32 on `generateRandomArray` throws. -/
theorem generateRandomArray_of_ge (random : Nat → ℚ) (length min max : Option Int)
    (h : 2 ^ 32 ≤ length.getD 10) : generateRandomArray random length min max = none := by
  rw [generateRandomArray, if_pos h]

/-- C12, as stated, fails: the tokens `12abc` and `3.7` are no valid integers, and
`parseInput` keeps them, as 12 and as 3. -/
theorem C12_parseInput_keeps_leading_integer :
    isInteger (trim "12abc".data) = false ∧ parseInput "12abc" = some [12] ∧
      parseInputSpec "12abc" = some [] ∧
      isInteger (trim "3.7".data) = false ∧ parseInput "3.7" = some [3] ∧
      parseInputSpec "3.7" = some [] := by
  decide

/-- C12, amended: `parseInput` splits on commas, trims each token and returns, in order,
the number `parseInt` gives for each token on which it is not `NaN`; when no token writes
an integer above 2^53 these numbers are the integers that `parseInt` reads.  A token that
is a valid integer is kept; more generally a token that starts, after an optional sign,
with decimal digits is kept, whatever follows them (unless it goes on with a digit, or
with `x` or `X`), and its value is the value of these digits when that is at most 2^53
(above, the number kept is the JS number nearest to it, which is not determined here); a
token that starts with a character that is no white space, no sign and no decimal digit,
and the empty token, are discarded; "3, 1, x, 2" gives [3, 1, 2], "" gives [] and
"12abc, 3.7, 0x1F, 0xg" gives [12, 3, 31]. -/
theorem C12_parseInput_amended (input : String) :
    parseInput input =
        (if ParsedNumber.rounded ∈ (split ',' input.data).map (fun n => parseInt (trim n))
          then none
          else some (((split ',' input.data).map (fun n => parseInt (trim n))).filterMap
            integerValue)) ∧
      (∀ tok : List Char, isInteger tok = true → parseInt tok ≠ ParsedNumber.notANumber) ∧
      (∀ ds rest : List Char, ds ≠ [] → ds.all isDecimalDigit = true →
        (∀ c t, rest = c :: t → isDecimalDigit c = false ∧ c ≠ 'x' ∧ c ≠ 'X') →
          (parseInt (ds ++ rest) ≠ ParsedNumber.notANumber ∧
            parseInt ('-' :: (ds ++ rest)) ≠ ParsedNumber.notANumber ∧
            parseInt ('+' :: (ds ++ rest)) ≠ ParsedNumber.notANumber) ∧
          (digitsValue 10 ds ≤ 2 ^ 53 →
            parseInt (ds ++ rest) = ParsedNumber.integer (digitsValue 10 ds : Int) ∧
            parseInt ('-' :: (ds ++ rest)) = ParsedNumber.integer (-(digitsValue 10 ds : Int)) ∧
            parseInt ('+' :: (ds ++ rest)) = ParsedNumber.integer (digitsValue 10 ds : Int))) ∧
      (∀ z : Int, z.natAbs ≤ 2 ^ 53 → parseInt (toString z).data = ParsedNumber.integer z) ∧
      (parseInt [] = ParsedNumber.notANumber ∧
        ∀ (c : Char) (t : List Char), isWhiteSpace c = false → c ≠ '-' → c ≠ '+' →
          isDecimalDigit c = false → parseInt (c :: t) = ParsedNumber.notANumber) ∧
      (parseInput "3, 1, x, 2" = some [3, 1, 2] ∧ parseInput "" = some [] ∧
        parseInput "12abc, 3.7, 0x1F, 0xg" = some [12, 3, 31] ∧
        parseInput "-9007199254740992" = some [-9007199254740992] ∧
        parseInt "9007199254740993".data = ParsedNumber.rounded) := by
  refine ⟨keepNumbers_eq _, parseInt_of_isInteger, ?_, ?_, ⟨by decide, ?_⟩, by decide⟩
  · intro ds rest hne hall hrest
    have hds : ∀ c ∈ ds, IsDecimal c := fun c hc =>
      isDecimal_of_isDecimalDigit c (List.all_eq_true.1 hall c hc)
    have hrest2 : ∀ c t, rest = c :: t →
        (radixDigit 10 c).isSome = false ∧ c ≠ 'x' ∧ c ≠ 'X' := by
      intro c t h
      rw [radixDigit_ten_isSome]
      exact hrest c t h
    have h1 := (parseInt_digits ds rest hds hne hrest2).1
    have h2 := (parseInt_digits ds rest hds hne hrest2).2
    have h3 := parseInt_plus_digits ds rest hds hne hrest2
    refine ⟨⟨?_, ?_, ?_⟩, fun hb => ?_⟩
    · rw [h1]
      split <;> simp
    · rw [h2]
      split <;> simp
    · rw [h3]
      split <;> simp
    · rw [if_pos hb] at h1 h2 h3
      exact ⟨h1, h2, h3⟩
  · intro z hz
    have := parseInt_toString z [] hz (by intro c t h; cases h)
    rwa [List.append_nil] at this
  · intro c t hw hm hp hd
    exact parseInt_no_digit c t hw hm hp (by rw [radixDigit_ten_isSome]; exact hd)

/-- C13, as stated, fails: 10^21 is an integer that a JS number holds, `join` renders the
array that holds it as `1e+21`, and `parseInput` reads this text as the array that holds
1. -/
theorem C13_roundtrip_fails_at_1e21 :
    roundToNumber (10 ^ 21) = 10 ^ 21 ∧ join [10 ^ 21] = "1e+21" ∧
      parseInput (join [10 ^ 21]) = some [1] ∧ parseInput (join [10 ^ 21]) ≠ some [10 ^ 21] ∧
      parseInput (join [3, -(10 ^ 21), 7]) = some [3, -1, 7] := by
  decide

/-- C13, amended: the text of the generator reads back through the normalizer when the
integers are below 2^53 in magnitude: for every list xs of such integers, negative values
included, `parseInput` applied to the elements of xs joined with ", " returns xs; so it
does for the empty list, and, the draws of the random source being in `[0, 1)`, for the
text `generateRandomArray` returns for its default range and a length below 2^32. -/
theorem C13_generator_roundtrip (xs : List Int) (hxs : ∀ x ∈ xs, x.natAbs < 2 ^ 53) :
    parseInput (join xs) = some xs ∧ parseInput (join []) = some [] ∧
      ∀ (random : Nat → ℚ) (length : Option Int), (∀ k, 0 ≤ random k ∧ random k < 1) →
        length.getD 10 < 2 ^ 32 →
          generateRandomArray random length none none =
              some (join (generateRandomValues random length none none)) ∧
            parseInput (join (generateRandomValues random length none none)) =
              some (generateRandomValues random length none none) :=
  ⟨parseInput_join xs hxs, parseInput_join [] (by simp), fun random length hr hlen =>
    ⟨generateRandomArray_of_lt random length none none hlen,
      parseInput_join _ (generateRandomValues_default_safe random hr length)⟩⟩

/-- C13, amended, for the list -5, 0, 12, 9007199254740991. -/
theorem C13_generator_roundtrip_witness :
    (∀ x ∈ [-5, 0, 12, 9007199254740991], Int.natAbs x < 2 ^ 53) ∧
      parseInput (join [-5, 0, 12, 9007199254740991]) = some [-5, 0, 12, 9007199254740991] :=
  ⟨by decide, (C13_generator_roundtrip [-5, 0, 12, 9007199254740991] (by decide)).1⟩

/-- C14, as stated, fails: for the lengths 0 and -3 `generateRandomArray` makes no integer
and the empty text, not 10 integers. -/
theorem C14_nonpositive_length_gives_none :
    (generateRandomValues (fun _ => 0) (some 0) none none).length = 0 ∧
      (generateRandomValues (fun _ => 0) (some (-3)) none none).length = 0 ∧
      generateRandomArray (fun _ => 0) (some 0) none none = some "" ∧
      onGenerateClick (fun _ => 0) (some (-3)) = some "" ∧
      (onGenerateClick (fun _ => 0) (some 0)).bind parseInput = some [] := by
  decide

/-- C14, amended: for every outcome of the random source `generateRandomArray` produces
exactly as many integers as the requested length when that length is positive and below
2^32, exactly 10 integers when the length is not given (no argument, or the empty length
field), and no integer, the empty text, when the length is zero or negative; from the
length 2^32 on it produces nothing, `Array.from` throws.  With the draws in `[0, 1)` the
text produced for the default range reads back as that many integers, and `handleSort`
reads the empty text as a request for 10 random integers. -/
theorem C14_generator_length (random : Nat → ℚ) (min max : Option Int) :
    (∀ n : Int, 0 < n → n < 2 ^ 32 →
        ((generateRandomValues random (some n) min max).length : Int) = n ∧
        generateRandomArray random (some n) min max =
          some (join (generateRandomValues random (some n) min max)) ∧
        onGenerateClick random (some n) =
          some (join (generateRandomValues random (some n) none none))) ∧
      (∀ n : Int, 2 ^ 32 ≤ n →
        generateRandomArray random (some n) min max = none ∧
        onGenerateClick random (some n) = none) ∧
      ((generateRandomValues random none min max).length = 10 ∧
        generateRandomArray random none min max =
          some (join (generateRandomValues random none min max)) ∧
        onGenerateClick random none =
          some (join (generateRandomValues random (some 10) none none))) ∧
      (∀ n : Int, n ≤ 0 →
        generateRandomValues random (some n) min max = [] ∧
        generateRandomArray random (some n) min max = some "" ∧
        onGenerateClick random (some n) = some "") ∧
      ((∀ k, 0 ≤ random k ∧ random k < 1) →
        (∀ n : Int, 0 < n → n < 2 ^ 32 →
          ∃ arr, (onGenerateClick random (some n)).bind parseInput = some arr ∧
            (arr.length : Int) = n) ∧
        (∃ arr, (onGenerateClick random none).bind parseInput = some arr ∧
          arr.length = 10) ∧
        ∃ arr, handleSortInput random "" = some arr ∧ arr.length = 10) := by
  have hnil : ∀ (n : Int) (a b : Option Int), n ≤ 0 →
      generateRandomValues random (some n) a b = [] := by
    intro n a b hn
    have h0 : n.toNat = 0 := by omega
    simp [generateRandomValues, h0]
  have hclick : ∀ n : Int, n < 2 ^ 32 → onGenerateClick random (some n) =
      some (join (generateRandomValues random (some n) none none)) := by
    intro n hn
    rw [onGenerateClick]
    exact generateRandomArray_of_lt random _ none none hn
  have hten : generateRandomArray random none none none =
      some (join (generateRandomValues random none none none)) :=
    generateRandomArray_of_lt random none none none (by decide)
  refine ⟨fun n hn hlt => ⟨?_, ?_, hclick n hlt⟩, fun n hn => ⟨?_, ?_⟩, ⟨?_, ?_, ?_⟩,
    fun n hn => ⟨hnil n min max hn, ?_, ?_⟩, fun hr => ⟨fun n hn hlt => ?_, ?_, ?_⟩⟩
  · rw [generateRandomValues_length]
    simp only [Option.getD_some]
    omega
  · exact generateRandomArray_of_lt random _ min max hlt
  · exact generateRandomArray_of_ge random _ min max hn
  · rw [onGenerateClick]
    exact generateRandomArray_of_ge random _ none none hn
  · rw [generateRandomValues_length]; rfl
  · exact generateRandomArray_of_lt random none min max (by decide)
  · exact hclick 10 (by decide)
  · rw [generateRandomArray_of_lt random _ min max (lt_of_le_of_lt hn (by decide)),
      hnil n min max hn]
    rfl
  · rw [hclick n (lt_of_le_of_lt hn (by decide)), hnil n none none hn]
    rfl
  · refine ⟨generateRandomValues random (some n) none none, ?_, ?_⟩
    · rw [hclick n hlt, Option.some_bind,
        parseInput_join _ (generateRandomValues_default_safe random hr _)]
    · rw [generateRandomValues_length]
      simp only [Option.getD_some]
      omega
  · have h10 : onGenerateClick random none =
        some (join (generateRandomValues random (some 10) none none)) := hclick 10 (by decide)
    refine ⟨generateRandomValues random (some 10) none none, ?_, ?_⟩
    · rw [h10, Option.some_bind,
        parseInput_join _ (generateRandomValues_default_safe random hr _)]
    · rw [generateRandomValues_length]; rfl
  · refine ⟨generateRandomValues random none none none, ?_, ?_⟩
    · rw [handleSortInput, if_pos rfl, hten]
      exact parseInput_join _ (generateRandomValues_default_safe random hr _)
    · rw [generateRandomValues_length]; rfl

/-- C15: every value `generateRandomArray` produces lies in the closed range from `min` to
`max`, by default from 1 to 1000: for all integers `min ≤ max` and every draw `r` with
`0 ≤ r < 1`, `min ≤ floor(r * (max - min + 1)) + min ≤ max`. -/
theorem C15_random_value_in_range (min max : Int) (random : Nat → ℚ) (h : min ≤ max)
    (hr : ∀ k, 0 ≤ random k ∧ random k < 1) :
    (∀ r : ℚ, 0 ≤ r → r < 1 →
        min ≤ ⌊r * ((max - min + 1 : Int) : ℚ)⌋ + min ∧
          ⌊r * ((max - min + 1 : Int) : ℚ)⌋ + min ≤ max) ∧
      (∀ length : Option Int,
        ∀ v ∈ generateRandomValues random length (some min) (some max), min ≤ v ∧ v ≤ max) ∧
      (∀ length : Option Int,
        ∀ v ∈ generateRandomValues random length none none, 1 ≤ v ∧ v ≤ 1000) := by
  refine ⟨fun r h0 h1 => randomInt_mem_range r min max h h0 h1, ?_, ?_⟩
  · intro length v hv
    simp only [generateRandomValues, List.mem_map, Option.getD_some] at hv
    obtain ⟨k, -, rfl⟩ := hv
    exact randomInt_mem_range _ min max h (hr k).1 (hr k).2
  · intro length v hv
    simp only [generateRandomValues, List.mem_map, Option.getD_none] at hv
    obtain ⟨k, -, rfl⟩ := hv
    exact randomInt_mem_range _ 1 1000 (by decide) (hr k).1 (hr k).2

/-- C15 for the default range and the draws all equal to one half. -/
theorem C15_random_value_in_range_witness :
    (1 : Int) ≤ 1000 ∧ (∀ k : Nat, (0 : ℚ) ≤ (fun _ => 1 / 2) k ∧ (fun _ => (1 : ℚ) / 2) k < 1) ∧
      ∀ length : Option Int,
        ∀ v ∈ generateRandomValues (fun _ => 1 / 2) length none none, 1 ≤ v ∧ v ≤ 1000 :=
  ⟨by decide, fun _ => ⟨by norm_num, by norm_num⟩,
    (C15_random_value_in_range 1 1000 (fun _ => 1 / 2) (by decide)
      (fun _ => ⟨by norm_num, by norm_num⟩)).2.2⟩

end SortViz
